import Mathlib

/-!
Verification of the checkdmarc-web-frontend RFC/draft citation linker.

A shallow embedding, over `List Char`, of the two citation linkers of the
repository:

* `src/filters/rfc_links.py` — pattern `CITATION` (RFC or draft reference with
  an optional `§`/`section` part), anchor mapper `_rfc_anchor`, replacement
  builder `_replacement`, and the entry point `link_rfc`;
* `src/main.py` — pattern `RFC_CITATION` (RFC reference with a *mandatory*
  section part), its own `_rfc_anchor` and `_repl`, entry point `link_rfc`,
  and `normalize_domain`.

Strings are modelled as `List Char`.  The regular expressions are embedded as
explicit matching functions that reproduce the Python `re` backtracking
semantics of the concrete patterns (each quantifier of the source patterns is
either deterministic — shown case by case in comments — or given its explicit
greedy/lazy alternative order).  `re.sub` is modelled by `subAux`, which scans
left to right, attempts the pattern at every position where the `(?<!\w)`
lookbehind allows a match, substitutes the replacement and resumes after the
match, exactly as Python's scanner does for these patterns (which can never
match the empty string).
-/

/-- The apostrophe character (U+0027), used by the HTML escaper. -/
def apos : Char := Char.ofNat 39

/-- Python `\s` on the ASCII range: space, tab, newline, carriage return,
vertical tab, form feed.  (The linkers are specified over text; non-ASCII
Unicode spaces are outside the character universe of this development.) -/
def isSpace (c : Char) : Bool :=
  c = ' ' || c = '\t' || c = '\n' || c = '\r' || c = '\x0b' || c = '\x0c'

/-- Python `\w` on the ASCII range: letters, digits, underscore.  Used by the
`(?<!\w)` lookbehind of both citation patterns. -/
def isWordChar (c : Char) : Bool :=
  c.isAlphanum || c = '_'

/-- Modelled from the documented behavior of Python `str.lower` (and of the
`re.IGNORECASE` folding) restricted to the characters this development
manipulates: ASCII uppercase letters map to their lowercase counterparts and
every other character involved here is unchanged. -/
def pyLower (c : Char) : Char :=
  if c = 'A' then 'a' else if c = 'B' then 'b' else if c = 'C' then 'c'
  else if c = 'D' then 'd' else if c = 'E' then 'e' else if c = 'F' then 'f'
  else if c = 'G' then 'g' else if c = 'H' then 'h' else if c = 'I' then 'i'
  else if c = 'J' then 'j' else if c = 'K' then 'k' else if c = 'L' then 'l'
  else if c = 'M' then 'm' else if c = 'N' then 'n' else if c = 'O' then 'o'
  else if c = 'P' then 'p' else if c = 'Q' then 'q' else if c = 'R' then 'r'
  else if c = 'S' then 's' else if c = 'T' then 't' else if c = 'U' then 'u'
  else if c = 'V' then 'v' else if c = 'W' then 'w' else if c = 'X' then 'x'
  else if c = 'Y' then 'y' else if c = 'Z' then 'z' else c

/-- Modelled from the documented behavior of `markupsafe.escape` on a single
character: `&`, `<`, `>`, `"` and `'` become their HTML entities, any other
character is kept.  (`markupsafe` replaces `&` first and then the other four
characters, which is equivalent to this character-wise map.) -/
def escapeChar (c : Char) : List Char :=
  if c = '&' then "&amp;".data
  else if c = '<' then "&lt;".data
  else if c = '>' then "&gt;".data
  else if c = '"' then "&#34;".data
  else if c = apos then "&#39;".data
  else [c]

/-- `markupsafe.escape` on a whole string. -/
def escapeList : List Char → List Char
  | [] => []
  | c :: rest => escapeChar c ++ escapeList rest

/-- The character class of the section token,
`[^\s\]\),;:.]` — anything but whitespace, `]`, `)`, `,`, `;`, `:`, `.`. -/
def isSectionChar (c : Char) : Bool :=
  !isSpace c && c ≠ ']' && c ≠ ')' && c ≠ ',' && c ≠ ';' && c ≠ ':' && c ≠ '.'

/-- The terminator class of the trailing lookahead `(?=[\s\]\),;:.]|$)`.
It is exactly the complement of `isSectionChar`. -/
def isTerminator (c : Char) : Bool :=
  isSpace c || c = ']' || c = ')' || c = ',' || c = ';' || c = ':' || c = '.'

/-- The lookahead `(?=[\s\]\),;:.]|$)`: end of input or a terminator next. -/
def lookaheadOk : List Char → Bool
  | [] => true
  | c :: _ => isTerminator c

/-- The draft-name continuation class `[A-Za-z0-9-]`. -/
def isStarChar (c : Char) : Bool :=
  c.isAlphanum || c = '-'

/-- Greedy continuation of a section token that started with a section
character: consumes further section characters and `.`-joined groups,
implementing `[^\s\]\),;:.]*(?:\.[^\s\]\),;:.]+)*` read left to right.
Returns (consumed, rest).  Because `-` itself belongs to the section character
class, the final `(?:-[^\s\]\),;:.]+)*` of the source pattern can never
consume anything after this greedy parse (the character after it is never
`-`), so it is absorbed here. -/
def tokAux : List Char → List Char × List Char
  | [] => ([], [])
  | c :: rest =>
    if isSectionChar c then
      let p := tokAux rest
      (c :: p.1, p.2)
    else if c = '.' then
      match rest with
      | r :: rest2 =>
        if isSectionChar r then
          let p := tokAux rest2
          ('.' :: r :: p.1, p.2)
        else ([], c :: rest)
      | [] => ([], [c])
    else ([], c :: rest)

/-- The section token
`[^\s\]\),;:.]+(?:\.[^\s\]\),;:.]+)*(?:-[^\s\]\),;:.]+)*`:
at least one section character, then `tokAux`.  Returns (token, rest). -/
def matchSectionToken (s : List Char) : Option (List Char × List Char) :=
  match s with
  | c :: rest =>
    if isSectionChar c then
      let p := tokAux rest
      some (c :: p.1, p.2)
    else none
  | [] => none

/-- After a section marker: `\s*` then the section token.
Returns (whitespace consumed, token, rest). -/
def afterMarker (s : List Char) : Option (List Char × List Char × List Char) :=
  let w := s.takeWhile isSpace
  let s1 := s.dropWhile isSpace
  (matchSectionToken s1).map (fun p => (w, p.1, p.2))

/-- The optional comma of `\s*,?\s*`: consume a leading `,` when present.
Returns (consumed, rest). -/
def commaSplit (s : List Char) : List Char × List Char :=
  match s with
  | ',' :: t => ([','], t)
  | _ => ([], s)

/-- The marker-and-token part `(?:§{1,2}|section)\s*(?P<section>…)`.
`§{1,2}` is greedy: two `§` are tried first and the single-`§` reading is
the backtracking alternative (in which case the second `§`, being a section
character, can become the start of the token).  Returns
(consumed, section token, rest). -/
def matchMarked (s : List Char) : Option (List Char × List Char × List Char) :=
  match s with
  | '§' :: '§' :: t =>
    (match afterMarker t with
     | some (w3, tok, rest) => some (['§', '§'] ++ w3 ++ tok, tok, rest)
     | none =>
       (afterMarker ('§' :: t)).map
         (fun p => (['§'] ++ p.1 ++ p.2.1, p.2.1, p.2.2)))
  | '§' :: t =>
    (afterMarker t).map
      (fun p => (['§'] ++ p.1 ++ p.2.1, p.2.1, p.2.2))
  | a :: b :: c :: d :: e :: f :: g :: t =>
    if pyLower a = 's' && pyLower b = 'e' && pyLower c = 'c' && pyLower d = 't'
        && pyLower e = 'i' && pyLower f = 'o' && pyLower g = 'n' then
      (afterMarker t).map
        (fun p => ([a, b, c, d, e, f, g] ++ p.1 ++ p.2.1, p.2.1, p.2.2))
    else none
  | _ => none

/-- The section group of both patterns:
`\s*,?\s*(?:§{1,2}|section)\s*(?P<section>…)`.
`\s*,?\s*` is deterministic here: read greedily as maximal whitespace, an
optional comma, maximal whitespace — no backtracking alternative can help,
because neither a whitespace character nor a comma can begin the marker.
Returns (consumed, section token, rest). -/
def matchSectionGroup (s : List Char) : Option (List Char × List Char × List Char) :=
  let w1 := s.takeWhile isSpace
  let s1 := s.dropWhile isSpace
  let cs := commaSplit s1
  let w2 := cs.2.takeWhile isSpace
  let s3 := cs.2.dropWhile isSpace
  (matchMarked s3).map
    (fun p => (w1 ++ cs.1 ++ w2 ++ p.1, p.2.1, p.2.2))

/-- Continuation after the document reference in `CITATION`: the optional
group of the section (greedy `?`: with the group first, skipping it as the
backtracking alternative), then the trailing lookahead.  Returns
(consumed, optional section token, rest). -/
def afterDoc (s : List Char) : Option (List Char × Option (List Char) × List Char) :=
  match matchSectionGroup s with
  | some (g, tok, rest) =>
    if lookaheadOk rest then some (g, some tok, rest)
    else if lookaheadOk s then some ([], none, s) else none
  | none => if lookaheadOk s then some ([], none, s) else none

/-- `RFC\s*(?P<rfc>\d+)`, case-insensitively.  `\s*` and `\d+` are greedy and
need no backtracking: any shorter reading leaves a whitespace character or a
digit in front of the continuation, which can begin neither the section group
nor the lookahead.  Returns (consumed, digit group, rest). -/
def matchRfcHead (s : List Char) : Option (List Char × List Char × List Char) :=
  match s with
  | a :: b :: c :: rest =>
    if pyLower a = 'r' && pyLower b = 'f' && pyLower c = 'c' then
      let w := rest.takeWhile isSpace
      let r1 := rest.dropWhile isSpace
      let ds := r1.takeWhile Char.isDigit
      let r2 := r1.dropWhile Char.isDigit
      if ds.isEmpty then none
      else some ([a, b, c] ++ w ++ ds, ds, r2)
    else none
  | _ => none

/-- `draft-[A-Za-z0-9]`, case-insensitively on the literal `draft-`.
Returns (consumed, rest). -/
def matchDraftHead (s : List Char) : Option (List Char × List Char) :=
  match s with
  | d :: r :: a :: f :: t :: h :: c0 :: rest =>
    if pyLower d = 'd' && pyLower r = 'r' && pyLower a = 'a' && pyLower f = 'f'
        && pyLower t = 't' && h = '-' && c0.isAlphanum then
      some ([d, r, a, f, t, h, c0], rest)
    else none
  | _ => none

/-- The lazy tail of the draft name:
`[A-Za-z0-9-]*?(?:-\d{2})?` followed by the optional section group and the
lookahead.  Lazy star: at each position the continuation is tried first —
the greedy two-digit version suffix, then no suffix — and only if both fail
is one more star character consumed.  Returns
(tail consumed into the draft name, section-group consumed, optional section
token, rest). -/
def draftLoop : List Char → Option (List Char × List Char × Option (List Char) × List Char)
  | [] =>
    (match afterDoc [] with
     | some (g, sec, rem) => some ([], g, sec, rem)
     | none => none)
  | c :: rest =>
    let try1 : Option (List Char × List Char × Option (List Char) × List Char) :=
      match c, rest with
      | '-', a :: b :: rest2 =>
        if a.isDigit && b.isDigit then
          match afterDoc rest2 with
          | some (g, sec, rem) => some (['-', a, b], g, sec, rem)
          | none => none
        else none
      | _, _ => none
    let try2 : Option (List Char × List Char × Option (List Char) × List Char) :=
      match afterDoc (c :: rest) with
      | some (g, sec, rem) => some ([], g, sec, rem)
      | none => none
    let try3 : Option (List Char × List Char × Option (List Char) × List Char) :=
      if isStarChar c then
        match draftLoop rest with
        | some (tl, g, sec, rem) => some (c :: tl, g, sec, rem)
        | none => none
      else none
    try1.orElse (fun _ => try2.orElse (fun _ => try3))

/-- The result of one successful match of a citation pattern: the whole
matched span (`m.group(0)`), and the groups `rfc`, `draft`, `section`. -/
structure MatchRes where
  matched : List Char
  rfc : Option (List Char)
  draft : Option (List Char)
  sect : Option (List Char)
deriving Repr, DecidableEq

/-- `CITATION` of `src/filters/rfc_links.py`, attempted at the head of `s`
(the `(?<!\w)` lookbehind is enforced by the scanner `subAux`).  The two
document alternatives are tried in pattern order; their first characters
(`R`/`r` versus `D`/`d`) are disjoint, so `orElse` is exactly the regex
alternation.  Returns the match and the rest of the input. -/
def matchCitation (s : List Char) : Option (MatchRes × List Char) :=
  let rfcBranch : Option (MatchRes × List Char) :=
    match matchRfcHead s with
    | some (hc, ds, rest) =>
      match afterDoc rest with
      | some (g, sec, rem) =>
        some ({ matched := hc ++ g, rfc := some ds, draft := none, sect := sec }, rem)
      | none => none
    | none => none
  let draftBranch : Option (MatchRes × List Char) :=
    match matchDraftHead s with
    | some (hd, rest) =>
      match draftLoop rest with
      | some (tl, g, sec, rem) =>
        some ({ matched := hd ++ tl ++ g, rfc := none, draft := some (hd ++ tl),
                sect := sec }, rem)
      | none => none
    | none => none
  rfcBranch.orElse (fun _ => draftBranch)

/-- `RFC_CITATION` of `src/main.py`, attempted at the head of `s`: like the
RFC alternative of `CITATION`, but the section group is mandatory. -/
def matchCitationMain (s : List Char) : Option (MatchRes × List Char) :=
  match matchRfcHead s with
  | some (hc, ds, rest) =>
    match matchSectionGroup rest with
    | some (g, tok, rest2) =>
      if lookaheadOk rest2 then
        some ({ matched := hc ++ g, rfc := some ds, draft := none, sect := some tok }, rest2)
      else none
    | none => none
  | none => none

/-- Python `str.strip()`: drop ASCII whitespace from both ends. -/
def stripWs (s : List Char) : List Char :=
  (((s.dropWhile isSpace).reverse).dropWhile isSpace).reverse

/-- The trailing-punctuation class of `RE_TRAILING_PUNCT = [).,;: ]+$`
(and of `str.rstrip(").,;: ")` in `src/main.py`'s `_repl`). -/
def isTrailPunct (c : Char) : Bool :=
  c = ')' || c = '.' || c = ',' || c = ';' || c = ':' || c = ' '

/-- `RE_TRAILING_PUNCT.sub("", s)`: remove the trailing run of `).,;: `. -/
def rstripPunct (s : List Char) : List Char :=
  ((s.reverse).dropWhile isTrailPunct).reverse

/-- The trailing-punctuation set of `src/main.py`'s `_rfc_anchor`,
`str.rstrip(").,;:")` — same set but without the space. -/
def isTrailPunctMain (c : Char) : Bool :=
  c = ')' || c = '.' || c = ',' || c = ';' || c = ':'

/-- `str.rstrip(").,;:")`. -/
def rstripPunctMain (s : List Char) : List Char :=
  ((s.reverse).dropWhile isTrailPunctMain).reverse

/-- `RE_COLLAPSE_WS.sub(" ", s)` (`\s+` → one space): the flag records
whether we are inside a whitespace run that has already emitted its space. -/
def collapseWsAux : Bool → List Char → List Char
  | _, [] => []
  | inRun, c :: rest =>
    if isSpace c then
      if inRun then collapseWsAux true rest
      else ' ' :: collapseWsAux true rest
    else c :: collapseWsAux false rest

/-- `re.sub(r"\s+", " ", s)`. -/
def collapseWs (s : List Char) : List Char :=
  collapseWsAux false s

/-- `re.fullmatch(r"\d+(?:\.\d+)*", s)` — the tail after the first digit:
digits, or a dot that is followed by at least one digit. -/
def numTail : List Char → Bool
  | [] => true
  | '.' :: rest =>
    match rest with
    | c :: r => c.isDigit && numTail r
    | [] => false
  | c :: rest => c.isDigit && numTail rest

/-- Whether `s` fully matches `\d+(?:\.\d+)*` (RE_NUMERIC_SECTION). -/
def isNumericSection : List Char → Bool
  | [] => false
  | c :: rest => c.isDigit && numTail rest

/-- `re.fullmatch(r"([A-Za-z])(?:\.(\d+(?:\.\d+)*))?", s)`
(RE_APPENDIX_SECTION): a single letter, optionally followed by `.` and a
dotted-numeric tail.  Returns the letter and the optional tail group. -/
def appendixMatch : List Char → Option (Char × Option (List Char))
  | [c] => if c.isAlpha then some (c, none) else none
  | c :: '.' :: rest =>
    if c.isAlpha && isNumericSection rest then some (c, some rest) else none
  | _ => none

/-- `RE_NONALNUM.sub("-", s)` (`[^A-Za-z0-9]+` → `-`): every maximal run of
non-alphanumeric characters becomes a single hyphen; the flag records whether
we are inside such a run. -/
def slugifyAux : Bool → List Char → List Char
  | _, [] => []
  | inRun, c :: rest =>
    if c.isAlphanum then c :: slugifyAux false rest
    else if inRun then slugifyAux true rest
    else '-' :: slugifyAux true rest

/-- `re.sub(r"[^A-Za-z0-9]+", "-", s)`. -/
def slugify (s : List Char) : List Char :=
  slugifyAux false s

/-- `str.strip("-")`: drop hyphens from both ends. -/
def stripHyphens (s : List Char) : List Char :=
  (((s.dropWhile (· = '-')).reverse).dropWhile (· = '-')).reverse

/-- The three anchor rules shared verbatim by both `_rfc_anchor` functions
(they differ only in the preceding trim, see the wrappers): numeric chain,
appendix style, slug fallback. -/
def anchorRules (s : List Char) : List Char :=
  if isNumericSection s then
    "section-".data ++ s
  else
    match appendixMatch s with
    | some (hd, tl) =>
      let head := pyLower hd
      let tail := (tl.getD []).map (fun c => if c = '.' then '-' else c)
      "appendix-".data ++ [head] ++ (if tail.isEmpty then [] else '-' :: tail)
    | none =>
      let slug := (stripHyphens (slugify s)).map pyLower
      "section-".data ++ slug

namespace RfcLinks

/-- `_rfc_anchor` of `src/filters/rfc_links.py`:
`s = RE_TRAILING_PUNCT.sub("", section.strip())`, then the three rules. -/
def _rfc_anchor (sec : List Char) : List Char :=
  anchorRules (rstripPunct (stripWs sec))

/-- `_replacement` of `src/filters/rfc_links.py`. -/
def _replacement (m : MatchRes) : List Char :=
  let fragment : List Char :=
    match m.sect with
    | some raw =>
      --  Normalize whitespace and trim trailing punctuation for the anchor
      let s1 := collapseWs raw
      let s2 := rstripPunct s1
      '#' :: _rfc_anchor s2
    | none =>
      --  No section: link to the document root (no fragment)
      []
  let base : List Char :=
    match m.rfc with
    | some ds => "https://datatracker.ietf.org/doc/html/rfc".data ++ ds
    | none => "https://datatracker.ietf.org/doc/html/".data ++ (m.draft.getD []).map pyLower
  --  Preserve the original matched text as the link text (already escaped)
  "<a href=\"".data ++ base ++ fragment ++ "\">".data ++ m.matched ++ "</a>".data

end RfcLinks

namespace MainPy

/-- `_rfc_anchor` of `src/main.py`:
`s = section.strip().rstrip(").,;:")`, then the same three rules. -/
def _rfc_anchor (sec : List Char) : List Char :=
  anchorRules (rstripPunctMain (stripWs sec))

/-- `_repl` of `src/main.py`'s `link_rfc`: the visible text is rebuilt as
`RFC {rfc} § {escape(section)}`, not the matched span. -/
def _repl (m : MatchRes) : List Char :=
  let raw := (m.sect).getD []
  --  normalize whitespace + strip trailing punctuation from the section
  let sec := rstripPunct (collapseWs raw)
  let fragment := _rfc_anchor sec
  let url := "https://www.rfc-editor.org/rfc/rfc".data ++ (m.rfc).getD [] ++ ".html#".data
    ++ fragment
  let visible := "RFC ".data ++ (m.rfc).getD [] ++ " § ".data ++ escapeList sec
  "<a href=\"".data ++ url ++ "\">".data ++ visible ++ "</a>".data

end MainPy

/-- Whether the character just before the scanner position (the last character
of the previous match) is a word character, for the `(?<!\w)` lookbehind. -/
def lastIsWord (l : List Char) : Bool :=
  match l.getLast? with
  | some c => isWordChar c
  | none => false

/-- `pattern.sub(repl, s)` for the citation patterns: scan left to right, at
every position where the `(?<!\w)` lookbehind holds try the pattern, emit the
replacement on success and resume right after the match.  `prevWord` says
whether the character before the current position is a word character (false
at the start of input).  The fuel argument only bounds the recursion; every
step consumes at least one character, so `s.length` fuel is always enough. -/
def subAux (matcher : List Char → Option (MatchRes × List Char))
    (repl : MatchRes → List Char) : Nat → Bool → List Char → List Char
  | 0, _, s => s
  | _ + 1, _, [] => []
  | fuel + 1, prevWord, c :: rest =>
    if prevWord then c :: subAux matcher repl fuel (isWordChar c) rest
    else
      match matcher (c :: rest) with
      | some (m, rem) => repl m ++ subAux matcher repl fuel (lastIsWord m.matched) rem
      | none => c :: subAux matcher repl fuel (isWordChar c) rest

namespace RfcLinks

/-- `link_rfc` of `src/filters/rfc_links.py`:
`Markup(CITATION.sub(_replacement, escape(value)))`. -/
def link_rfc_list (value : List Char) : List Char :=
  let subject := escapeList value
  subAux matchCitation _replacement subject.length false subject

/-- `link_rfc` on Lean strings. -/
def link_rfc (value : String) : String :=
  ⟨link_rfc_list value.data⟩

end RfcLinks

namespace MainPy

/-- `link_rfc` of `src/main.py`:
`Markup(RFC_CITATION.sub(_repl, escape(value)))`. -/
def link_rfc_list (value : List Char) : List Char :=
  let subject := escapeList value
  subAux matchCitationMain _repl subject.length false subject

/-- `link_rfc` of `src/main.py` on Lean strings. -/
def link_rfc (value : String) : String :=
  ⟨link_rfc_list value.data⟩

end MainPy

/-! ## `normalize_domain` of `src/main.py`

`normalize_domain` composes three library operations: `unicodedata.normalize
("NFC", ·)`, removal of the characters matched by `ZERO_WIDTH_RE`, and
`str.lower`.  NFC is modelled from UAX #15 (canonical decomposition,
canonical reordering, canonical composition) restricted to the canonical
data of the characters exercised in this development: ASCII and zero-width
characters have combining class 0 and no decomposition, U+0301 COMBINING
ACUTE ACCENT has combining class 230, and U+00E9 (é) canonically decomposes
to `e` + U+0301. -/

/-- The combining class (UAX #15 ccc) of the characters of our universe. -/
def ccc (c : Char) : Nat :=
  if c = '́' then 230 else 0

/-- Canonical decomposition (one level suffices for our universe). -/
def canonicalDecomp (c : Char) : List Char :=
  if c = 'é' then ['e', '́'] else [c]

/-- The canonical composition table of our universe (the only canonically
composable pair among the characters exercised by the theorems below is
`e` + U+0301 → `é`; other base letters are outside this universe). -/
def composePair (a b : Char) : Option Char :=
  if a = 'e' && b = '́' then some 'é' else none

/-- One bubble pass of the canonical reordering: adjacent combining marks
(ccc > 0) that are out of order are swapped; starters (ccc 0) are fixed. -/
def bubblePass (a : Char) : List Char → List Char
  | [] => [a]
  | b :: rest =>
    if ccc b > 0 && ccc a > ccc b then b :: bubblePass a rest
    else a :: bubblePass b rest

/-- One full reordering pass over the string. -/
def reorderPass : List Char → List Char
  | [] => []
  | c :: rest => bubblePass c rest

/-- Iterated reordering passes (length of the string many always settle). -/
def reorderN : Nat → List Char → List Char
  | 0, s => s
  | n + 1, s => reorderN n (reorderPass s)

/-- Canonical reordering of combining marks. -/
def canonicalReorder (s : List Char) : List Char :=
  reorderN s.length s

/-- Canonical composition (UAX #15): walk the decomposed, reordered string;
a combining mark composes with the last starter when it is not blocked
(no intervening mark of combining class ≥ its own); two adjacent starters
compose when the table says so. -/
def nfcComposeAux (starter : Char) (revMarks : List Char) (prevCCC : Nat) :
    List Char → List Char
  | [] => starter :: revMarks.reverse
  | c :: rest =>
    let cc := ccc c
    if cc = 0 then
      match (if revMarks.isEmpty then composePair starter c else none) with
      | some comp => nfcComposeAux comp [] 0 rest
      | none => (starter :: revMarks.reverse) ++ nfcComposeAux c [] 0 rest
    else
      match (if prevCCC < cc then composePair starter c else none) with
      | some comp => nfcComposeAux comp revMarks prevCCC rest
      | none => nfcComposeAux starter (c :: revMarks) cc rest

/-- Canonical composition of a whole string (characters before the first
starter pass through unchanged). -/
def nfcCompose : List Char → List Char
  | [] => []
  | c :: rest => if ccc c = 0 then nfcComposeAux c [] 0 rest else c :: nfcCompose rest

/-- `unicodedata.normalize("NFC", s)` on our character universe. -/
def nfc (s : List Char) : List Char :=
  nfcCompose (canonicalReorder (s.flatMap canonicalDecomp))

/-- `ZERO_WIDTH_RE`, the class `[\u200B-\u200D\uFEFF]` — ZWSP…ZWJ, BOM. -/
def isZeroWidth (c : Char) : Bool :=
  ('\u200B' ≤ c && c ≤ '\u200D') || c = '\uFEFF'

/-- `normalize_domain` of `src/main.py`: NFC, then `ZERO_WIDTH_RE.sub("", ·)`,
then `str.lower`. -/
def normalize_domain_list (domain : List Char) : List Char :=
  --  1. Normalize Unicode (NFC form for consistency)
  let d1 := nfc domain
  --  2. Remove zero-width and similar hidden chars
  let d2 := d1.filter (fun c => !isZeroWidth c)
  --  3. Lowercase for case-insensitivity (domains are case-insensitive)
  d2.map pyLower

/-- `normalize_domain` on Lean strings. -/
def normalize_domain (domain : String) : String :=
  ⟨normalize_domain_list domain.data⟩

set_option maxRecDepth 10000

/-! ## Structural facts about the matchers

Every component matcher consumes a prefix of its input: the consumed
characters followed by the returned rest reassemble the input, and each
captured group is a piece of the consumed span.  These are the facts behind
the frame, escaping and visible-text claims. -/

theorem tokAux_append (s : List Char) : (tokAux s).1 ++ (tokAux s).2 = s := by
  induction s using tokAux.induct <;> (rw [tokAux.eq_def]; simp [*])

theorem matchSectionToken_split {s t r : List Char}
    (h : matchSectionToken s = some (t, r)) : t ++ r = s ∧ t ≠ [] := by
  match s with
  | [] => simp [matchSectionToken] at h
  | c :: rest =>
    simp only [matchSectionToken] at h
    by_cases hc : isSectionChar c
    · simp only [hc, if_true, Option.some.injEq, Prod.mk.injEq] at h
      obtain ⟨ht, hr⟩ := h
      subst ht; subst hr
      refine ⟨?_, by simp⟩
      simpa using congrArg (c :: ·) (tokAux_append rest)
    · simp [hc] at h

theorem afterMarker_split {s w t r : List Char}
    (h : afterMarker s = some (w, t, r)) : w ++ (t ++ r) = s ∧ t ≠ [] := by
  simp only [afterMarker, Option.map_eq_some'] at h
  obtain ⟨⟨t', r'⟩, hm, heq⟩ := h
  simp only [Prod.mk.injEq] at heq
  obtain ⟨hw, ht, hr⟩ := heq
  subst hw; subst ht; subst hr
  obtain ⟨h1, h2⟩ := matchSectionToken_split hm
  refine ⟨?_, h2⟩
  rw [h1, List.takeWhile_append_dropWhile]

theorem commaSplit_append (s : List Char) : (commaSplit s).1 ++ (commaSplit s).2 = s := by
  match s with
  | [] => rfl
  | c :: t =>
    by_cases hc : c = ','
    · subst hc; rfl
    · simp only [commaSplit]
      split <;> simp_all

theorem matchMarked_split {s g t r : List Char}
    (h : matchMarked s = some (g, t, r)) :
    g ++ r = s ∧ (∃ pre, g = pre ++ t) ∧ t ≠ [] := by
  rw [matchMarked.eq_def] at h
  split at h
  · -- '§' :: '§' :: tl
    rename_i tl
    split at h
    · rename_i w3 tok rest hm
      obtain ⟨h1, h2⟩ := afterMarker_split hm
      simp only [Option.some.injEq, Prod.mk.injEq] at h
      obtain ⟨hg, ht, hr⟩ := h
      subst hg; subst ht; subst hr
      refine ⟨?_, ⟨['§', '§'] ++ w3, by simp⟩, h2⟩
      simp [← h1]
    · rename_i hm
      simp only [Option.map_eq_some'] at h
      obtain ⟨⟨w3, tok, rest⟩, hm2, heq⟩ := h
      simp only [Prod.mk.injEq] at heq
      obtain ⟨hg, ht, hr⟩ := heq
      subst hg; subst ht; subst hr
      obtain ⟨h1, h2⟩ := afterMarker_split hm2
      refine ⟨?_, ⟨['§'] ++ w3, by simp⟩, h2⟩
      simp only [List.append_assoc, List.cons_append, List.nil_append] at h1 ⊢
      simp [h1]
  · -- single '§'
    rename_i tl hne
    simp only [Option.map_eq_some'] at h
    obtain ⟨⟨w3, tok, rest⟩, hm2, heq⟩ := h
    simp only [Prod.mk.injEq] at heq
    obtain ⟨hg, ht, hr⟩ := heq
    subst hg; subst ht; subst hr
    obtain ⟨h1, h2⟩ := afterMarker_split hm2
    refine ⟨?_, ⟨['§'] ++ w3, by simp⟩, h2⟩
    simp only [List.append_assoc, List.cons_append, List.nil_append] at h1 ⊢
    simp [h1]
  · -- the literal `section`
    rename_i a b c d e f g' tl hne1 hne2
    split at h
    · simp only [Option.map_eq_some'] at h
      obtain ⟨⟨w3, tok, rest⟩, hm2, heq⟩ := h
      simp only [Prod.mk.injEq] at heq
      obtain ⟨hg, ht, hr⟩ := heq
      subst hg; subst ht; subst hr
      obtain ⟨h1, h2⟩ := afterMarker_split hm2
      refine ⟨?_, ⟨[a, b, c, d, e, f, g'] ++ w3, by simp⟩, h2⟩
      simp only [List.append_assoc, List.cons_append, List.nil_append] at h1 ⊢
      simp [h1]
    · exact absurd h (by simp)
  · exact absurd h (by simp)

theorem matchSectionGroup_split {s g t r : List Char}
    (h : matchSectionGroup s = some (g, t, r)) :
    g ++ r = s ∧ (∃ pre, g = pre ++ t) ∧ t ≠ [] := by
  simp only [matchSectionGroup, Option.map_eq_some'] at h
  obtain ⟨⟨g3, tok, rest⟩, hm, heq⟩ := h
  simp only [Prod.mk.injEq] at heq
  obtain ⟨hg, ht, hr⟩ := heq
  subst hg; subst ht; subst hr
  obtain ⟨h1, ⟨pre, hpre⟩, h2⟩ := matchMarked_split hm
  refine ⟨?_, ?_, h2⟩
  · simp only [List.append_assoc]
    rw [h1, List.takeWhile_append_dropWhile, commaSplit_append,
      List.takeWhile_append_dropWhile]
  · exact ⟨List.takeWhile isSpace s ++ ((commaSplit (List.dropWhile isSpace s)).1 ++
      (List.takeWhile isSpace (commaSplit (List.dropWhile isSpace s)).2 ++ pre)),
      by simp [hpre, List.append_assoc]⟩

theorem afterDoc_split {s g : List Char} {sec : Option (List Char)} {r : List Char}
    (h : afterDoc s = some (g, sec, r)) :
    g ++ r = s ∧ (∀ t, sec = some t → (∃ pre, g = pre ++ t) ∧ t ≠ []) ∧
      (sec = none → g = []) := by
  unfold afterDoc at h
  split at h
  · rename_i g' tok rest hm
    split at h
    · simp only [Option.some.injEq, Prod.mk.injEq] at h
      obtain ⟨hg, hsec, hr⟩ := h
      subst hg; subst hr
      obtain ⟨h1, hpre, hne⟩ := matchSectionGroup_split hm
      refine ⟨h1, ?_, ?_⟩
      · intro t ht; rw [← hsec] at ht
        simp only [Option.some.injEq] at ht
        subst ht; exact ⟨hpre, hne⟩
      · intro hn; rw [← hsec] at hn; simp at hn
    · split at h
      · simp only [Option.some.injEq, Prod.mk.injEq] at h
        obtain ⟨hg, hsec, hr⟩ := h
        subst hg; subst hr
        exact ⟨by simp, fun t ht => by rw [← hsec] at ht; simp at ht, fun _ => rfl⟩
      · simp at h
  · split at h
    · simp only [Option.some.injEq, Prod.mk.injEq] at h
      obtain ⟨hg, hsec, hr⟩ := h
      subst hg; subst hr
      exact ⟨by simp, fun t ht => by rw [← hsec] at ht; simp at ht, fun _ => rfl⟩
    · simp at h

theorem matchRfcHead_split {s hc ds r : List Char}
    (h : matchRfcHead s = some (hc, ds, r)) :
    hc ++ r = s ∧ hc ≠ [] ∧ (∃ pre, hc = pre ++ ds) ∧
      (∀ c ∈ ds, c.isDigit) ∧ ds ≠ [] ∧
      (∀ c ∈ hc, pyLower c = 'r' ∨ pyLower c = 'f' ∨ pyLower c = 'c' ∨
        isSpace c = true ∨ c.isDigit) := by
  rw [matchRfcHead.eq_def] at h
  split at h
  · rename_i a b c rest
    split at h
    · rename_i habc
      simp only [] at h
      split at h
      · simp at h
      · rename_i hne
        simp only [Option.some.injEq, Prod.mk.injEq] at h
        obtain ⟨hhc, hds, hr⟩ := h
        subst hhc; subst hds; subst hr
        simp only [Bool.and_eq_true, decide_eq_true_eq] at habc
        obtain ⟨⟨ha, hb⟩, hcc⟩ := habc
        refine ⟨?_, by simp, ⟨[a, b, c] ++ List.takeWhile isSpace rest, by simp⟩, ?_, ?_, ?_⟩
        · simp only [List.cons_append, List.nil_append, List.append_assoc, List.cons.injEq,
            true_and]
          rw [List.takeWhile_append_dropWhile, List.takeWhile_append_dropWhile]
        · intro x hx
          exact List.mem_takeWhile_imp hx
        · simpa using hne
        · intro x hx
          simp only [List.cons_append, List.nil_append, List.mem_cons, List.mem_append] at hx
          rcases hx with hx | hx | hx | hx | hx
          · subst hx; exact Or.inl ha
          · subst hx; exact Or.inr (Or.inl hb)
          · subst hx; exact Or.inr (Or.inr (Or.inl hcc))
          · exact Or.inr (Or.inr (Or.inr (Or.inl (List.mem_takeWhile_imp hx))))
          · exact Or.inr (Or.inr (Or.inr (Or.inr (List.mem_takeWhile_imp hx))))
    · simp at h
  · simp at h

theorem matchDraftHead_split {s hd r : List Char}
    (h : matchDraftHead s = some (hd, r)) :
    hd ++ r = s ∧ hd ≠ [] ∧
      (∀ c ∈ hd, pyLower c = 'd' ∨ pyLower c = 'r' ∨ pyLower c = 'a' ∨
        pyLower c = 'f' ∨ pyLower c = 't' ∨ c = '-' ∨ c.isAlphanum) := by
  rw [matchDraftHead.eq_def] at h
  split at h
  · rename_i d r' a f t hch c0 rest
    split at h
    · rename_i hcond
      simp only [Option.some.injEq, Prod.mk.injEq] at h
      obtain ⟨hhd, hr⟩ := h
      subst hhd; subst hr
      simp only [Bool.and_eq_true, decide_eq_true_eq] at hcond
      obtain ⟨⟨⟨⟨⟨⟨hd', hr'⟩, ha⟩, hf⟩, ht⟩, hh⟩, hc0⟩ := hcond
      refine ⟨by simp, by simp, ?_⟩
      intro x hx
      simp only [List.mem_cons, List.not_mem_nil, or_false] at hx
      rcases hx with hx | hx | hx | hx | hx | hx | hx <;> subst hx
      · exact Or.inl hd'
      · exact Or.inr (Or.inl hr')
      · exact Or.inr (Or.inr (Or.inl ha))
      · exact Or.inr (Or.inr (Or.inr (Or.inl hf)))
      · exact Or.inr (Or.inr (Or.inr (Or.inr (Or.inl ht))))
      · exact Or.inr (Or.inr (Or.inr (Or.inr (Or.inr (Or.inl hh)))))
      · exact Or.inr (Or.inr (Or.inr (Or.inr (Or.inr (Or.inr hc0)))))
    · simp at h
  · simp at h

theorem draftLoop_cons_eq (c : Char) (rest : List Char) :
    draftLoop (c :: rest) = ((match c, rest with
      | '-', a :: b :: rest2 =>
        if a.isDigit && b.isDigit then
          match afterDoc rest2 with
          | some (g, sec, rem) => some (['-', a, b], g, sec, rem)
          | none => none
        else none
      | _, _ => none) : Option (List Char × List Char × Option (List Char) × List Char)).orElse
      (fun _ => (match afterDoc (c :: rest) with
        | some (g, sec, rem) => some ([], g, sec, rem)
        | none => none).orElse
        (fun _ => if isStarChar c then
            match draftLoop rest with
            | some (tl, g, sec, rem) => some (c :: tl, g, sec, rem)
            | none => none
          else none)) := rfl

theorem draftLoop_split {s : List Char} :
    ∀ {tl g : List Char} {sec : Option (List Char)} {rem : List Char},
    draftLoop s = some (tl, g, sec, rem) →
    tl ++ (g ++ rem) = s ∧ (∀ c ∈ tl, isStarChar c) ∧
      (∀ t, sec = some t → (∃ pre, g = pre ++ t) ∧ t ≠ []) ∧ (sec = none → g = []) := by
  induction s with
  | nil =>
    intro tl g sec rem h
    have he : draftLoop ([] : List Char) =
        some (([] : List Char), ([] : List Char), (none : Option (List Char)),
          ([] : List Char)) := rfl
    rw [he] at h
    simp only [Option.some.injEq, Prod.mk.injEq] at h
    obtain ⟨h1, h2, h3, h4⟩ := h
    subst h1; subst h2; subst h4
    exact ⟨rfl, by simp, fun t ht => by rw [← h3] at ht; simp at ht, fun _ => rfl⟩
  | cons c rest ih =>
    intro tl g sec rem h
    rw [draftLoop_cons_eq] at h
    rw [Option.orElse_eq_some'] at h
    rcases h with h | ⟨_, h⟩
    · -- try1: the two-digit version suffix
      split at h
      · rename_i a b rest2
        split at h
        · split at h
          · rename_i hdig g' sec' rem' had
            simp only [Option.some.injEq, Prod.mk.injEq] at h
            obtain ⟨h1, h2, h3, h4⟩ := h
            subst h1; subst h2; subst h4
            obtain ⟨ha1, ha2, ha3⟩ := afterDoc_split had
            refine ⟨by simpa using ha1, ?_, fun t ht => ha2 t (by rw [← h3] at ht; exact ht),
              fun hn => ha3 (by rw [← h3] at hn; exact hn)⟩
            intro x hx
            simp only [List.mem_cons, List.not_mem_nil, or_false] at hx
            rcases hx with hx | hx | hx <;> subst hx <;>
              simp_all [isStarChar, Char.isAlphanum]
          · simp at h
        · simp at h
      · simp at h
    · rw [Option.orElse_eq_some'] at h
      rcases h with h | ⟨_, h⟩
      · -- try2: no suffix, the continuation right here
        split at h
        · rename_i g' sec' rem' had
          simp only [Option.some.injEq, Prod.mk.injEq] at h
          obtain ⟨h1, h2, h3, h4⟩ := h
          subst h1; subst h2; subst h4
          obtain ⟨ha1, ha2, ha3⟩ := afterDoc_split had
          exact ⟨by simpa using ha1, by simp, fun t ht => ha2 t (by rw [← h3] at ht; exact ht),
            fun hn => ha3 (by rw [← h3] at hn; exact hn)⟩
        · simp at h
      · -- try3: consume one lazy star character
        split at h
        · rename_i hstar
          split at h
          · rename_i tl' g' sec' rem' hrec
            simp only [Option.some.injEq, Prod.mk.injEq] at h
            obtain ⟨h1, h2, h3, h4⟩ := h
            subst h1; subst h2; subst h4
            obtain ⟨hi1, hi2, hi3, hi4⟩ := ih hrec
            refine ⟨by simpa using hi1, ?_, fun t ht => hi3 t (by rw [← h3] at ht; exact ht),
              fun hn => hi4 (by rw [← h3] at hn; exact hn)⟩
            intro x hx
            simp only [List.mem_cons] at hx
            rcases hx with hx | hx
            · subst hx; exact hstar
            · exact hi2 x hx
          · simp at h
        · simp at h

/-- `pyLower` either fixes a character or maps an ASCII letter to a lowercase
ASCII letter.  This is the only fact about case mapping the proofs need. -/
theorem pyLower_shape (c : Char) :
    pyLower c = c ∨ (c.isAlphanum = true ∧ 'a' ≤ pyLower c ∧ pyLower c ≤ 'z') := by
  by_cases h1 : c = 'A'
  · subst h1; right; exact (by decide)
  by_cases h2 : c = 'B'
  · subst h2; right; exact (by decide)
  by_cases h3 : c = 'C'
  · subst h3; right; exact (by decide)
  by_cases h4 : c = 'D'
  · subst h4; right; exact (by decide)
  by_cases h5 : c = 'E'
  · subst h5; right; exact (by decide)
  by_cases h6 : c = 'F'
  · subst h6; right; exact (by decide)
  by_cases h7 : c = 'G'
  · subst h7; right; exact (by decide)
  by_cases h8 : c = 'H'
  · subst h8; right; exact (by decide)
  by_cases h9 : c = 'I'
  · subst h9; right; exact (by decide)
  by_cases h10 : c = 'J'
  · subst h10; right; exact (by decide)
  by_cases h11 : c = 'K'
  · subst h11; right; exact (by decide)
  by_cases h12 : c = 'L'
  · subst h12; right; exact (by decide)
  by_cases h13 : c = 'M'
  · subst h13; right; exact (by decide)
  by_cases h14 : c = 'N'
  · subst h14; right; exact (by decide)
  by_cases h15 : c = 'O'
  · subst h15; right; exact (by decide)
  by_cases h16 : c = 'P'
  · subst h16; right; exact (by decide)
  by_cases h17 : c = 'Q'
  · subst h17; right; exact (by decide)
  by_cases h18 : c = 'R'
  · subst h18; right; exact (by decide)
  by_cases h19 : c = 'S'
  · subst h19; right; exact (by decide)
  by_cases h20 : c = 'T'
  · subst h20; right; exact (by decide)
  by_cases h21 : c = 'U'
  · subst h21; right; exact (by decide)
  by_cases h22 : c = 'V'
  · subst h22; right; exact (by decide)
  by_cases h23 : c = 'W'
  · subst h23; right; exact (by decide)
  by_cases h24 : c = 'X'
  · subst h24; right; exact (by decide)
  by_cases h25 : c = 'Y'
  · subst h25; right; exact (by decide)
  by_cases h26 : c = 'Z'
  · subst h26; right; exact (by decide)
  left
  simp only [pyLower, h1, h2, h3, h4, h5, h6, h7, h8, h9, h10, h11, h12, h13, h14, h15, h16, h17, h18, h19, h20, h21, h22, h23, h24, h25, h26, if_false, if_neg, not_false_eq_true]

/-- If `pyLower c` is not a lowercase ASCII letter, then `c` was fixed. -/
theorem pyLower_fix {c ch : Char} (h : pyLower c = ch)
    (hch : ¬('a' ≤ ch ∧ ch ≤ 'z')) : c = ch := by
  rcases pyLower_shape c with he | ⟨_, h1, h2⟩
  · rw [h] at he; exact he.symm
  · rw [h] at h1 h2; exact absurd ⟨h1, h2⟩ hch

/-- If `pyLower c` is a letter, `c` is alphanumeric. -/
theorem pyLower_alnum {c ch : Char} (h : pyLower c = ch)
    (_hch : 'a' ≤ ch ∧ ch ≤ 'z') : c.isAlphanum = true ∨ c = ch := by
  rcases pyLower_shape c with he | ⟨h1, _⟩
  · rw [h] at he; exact Or.inr he.symm
  · exact Or.inl h1

theorem matchCitation_eq (s : List Char) :
    matchCitation s = ((match matchRfcHead s with
      | some (hc, ds, rest) =>
        match afterDoc rest with
        | some (g, sec, rem) =>
          some ({ matched := hc ++ g, rfc := some ds, draft := none, sect := sec }, rem)
        | none => none
      | none => none : Option (MatchRes × List Char))).orElse (fun _ =>
        ((match matchDraftHead s with
        | some (hd, rest) =>
          match draftLoop rest with
          | some (tl, g, sec, rem) =>
            some ({ matched := hd ++ tl ++ g, rfc := none, draft := some (hd ++ tl), sect := sec }, rem)
          | none => none
        | none => none : Option (MatchRes × List Char)))) := rfl

theorem matchCitation_split {s : List Char} {m : MatchRes} {rem : List Char}
    (h : matchCitation s = some (m, rem)) :
    m.matched ++ rem = s ∧ m.matched ≠ [] ∧
    (∀ t, m.sect = some t → (∀ c ∈ t, c ∈ m.matched) ∧ t ≠ []) ∧
    (∀ d, m.rfc = some d → (∀ c ∈ d, c ∈ m.matched) ∧ (∀ c ∈ d, c.isDigit) ∧ d ≠ []) ∧
    (∀ d, m.draft = some d → (∃ suf, m.matched = d ++ suf) ∧ (∀ c ∈ d, isStarChar c)) ∧
    (m.rfc = none → ∃ d, m.draft = some d) ∧ (m.draft = none → ∃ d, m.rfc = some d) ∧
    (m.sect = none → ∀ c ∈ m.matched, isStarChar c = true ∨ isSpace c = true) := by
  rw [matchCitation_eq, Option.orElse_eq_some'] at h
  rcases h with h | ⟨_, h⟩
  · -- the RFC alternative
    split at h
    · rename_i hc ds rest hrfc
      split at h
      · rename_i g sec rem2 had
        simp only [Option.some.injEq, Prod.mk.injEq] at h
        obtain ⟨hm, hrem⟩ := h
        subst hrem
        obtain ⟨e1, e2, ⟨preD, hpreD⟩, e4, e5, e6⟩ := matchRfcHead_split hrfc
        obtain ⟨a1, a2, a3⟩ := afterDoc_split had
        subst hm
        simp only []
        refine ⟨?_, by simp [e2], ?_, ?_, by simp, by simp, fun _ => ⟨ds, rfl⟩, ?_⟩
        · rw [List.append_assoc, a1, e1]
        · intro t ht
          obtain ⟨⟨pre, hpre⟩, hne⟩ := a2 t ht
          exact ⟨fun c hcm => by simp [hpre, List.mem_append, hcm], hne⟩
        · intro d hd
          simp only [Option.some.injEq] at hd
          subst hd
          exact ⟨fun c hcm => by simp [hpreD, List.mem_append, hcm], e4, e5⟩
        · intro hsec c hcm
          rw [a3 hsec, List.append_nil] at hcm
          rcases e6 c hcm with hx | hx | hx | hx | hx
          · rcases pyLower_alnum hx (by decide) with hal | hal
            · exact Or.inl (by simp [isStarChar, hal])
            · subst hal; exact Or.inl (by decide)
          · rcases pyLower_alnum hx (by decide) with hal | hal
            · exact Or.inl (by simp [isStarChar, hal])
            · subst hal; exact Or.inl (by decide)
          · rcases pyLower_alnum hx (by decide) with hal | hal
            · exact Or.inl (by simp [isStarChar, hal])
            · subst hal; exact Or.inl (by decide)
          · exact Or.inr hx
          · exact Or.inl (by simp [isStarChar, Char.isAlphanum, hx])
      · simp at h
    · simp at h
  · -- the draft alternative
    split at h
    · rename_i hd rest hdraft
      split at h
      · rename_i tl g sec rem2 hloop
        simp only [Option.some.injEq, Prod.mk.injEq] at h
        obtain ⟨hm, hrem⟩ := h
        subst hrem
        obtain ⟨e1, e2, e3⟩ := matchDraftHead_split hdraft
        obtain ⟨l1, l2, l3, l4⟩ := draftLoop_split hloop
        subst hm
        simp only []
        refine ⟨?_, by simp [e2], ?_, by simp, ?_, fun _ => ⟨hd ++ tl, rfl⟩, by simp, ?_⟩
        · simp only [List.append_assoc]
          rw [l1, e1]
        · intro t ht
          obtain ⟨⟨pre, hpre⟩, hne⟩ := l3 t ht
          exact ⟨fun c hcm => by simp [hpre, List.mem_append, hcm], hne⟩
        · intro d hdq
          simp only [Option.some.injEq] at hdq
          subst hdq
          refine ⟨⟨g, by simp⟩, ?_⟩
          intro c hcm
          rcases List.mem_append.mp hcm with hx | hx
          · rcases e3 c hx with hy | hy | hy | hy | hy | hy | hy
            · rcases pyLower_alnum hy (by decide) with hal | hal
              · simp [isStarChar, hal]
              · subst hal; decide
            · rcases pyLower_alnum hy (by decide) with hal | hal
              · simp [isStarChar, hal]
              · subst hal; decide
            · rcases pyLower_alnum hy (by decide) with hal | hal
              · simp [isStarChar, hal]
              · subst hal; decide
            · rcases pyLower_alnum hy (by decide) with hal | hal
              · simp [isStarChar, hal]
              · subst hal; decide
            · rcases pyLower_alnum hy (by decide) with hal | hal
              · simp [isStarChar, hal]
              · subst hal; decide
            · subst hy; decide
            · simp [isStarChar, hy]
          · exact l2 c hx
        · intro hsec c hcm
          rw [l4 hsec, List.append_nil] at hcm
          rcases List.mem_append.mp hcm with hx | hx
          · left
            rcases e3 c hx with hy | hy | hy | hy | hy | hy | hy
            · rcases pyLower_alnum hy (by decide) with hal | hal
              · simp [isStarChar, hal]
              · subst hal; decide
            · rcases pyLower_alnum hy (by decide) with hal | hal
              · simp [isStarChar, hal]
              · subst hal; decide
            · rcases pyLower_alnum hy (by decide) with hal | hal
              · simp [isStarChar, hal]
              · subst hal; decide
            · rcases pyLower_alnum hy (by decide) with hal | hal
              · simp [isStarChar, hal]
              · subst hal; decide
            · rcases pyLower_alnum hy (by decide) with hal | hal
              · simp [isStarChar, hal]
              · subst hal; decide
            · subst hy; decide
            · simp [isStarChar, hy]
          · exact Or.inl (l2 c hx)
      · simp at h
    · simp at h

theorem matchCitationMain_split {s : List Char} {m : MatchRes} {rem : List Char}
    (h : matchCitationMain s = some (m, rem)) :
    m.matched ++ rem = s ∧ m.matched ≠ [] ∧
    (∀ t, m.sect = some t → (∀ c ∈ t, c ∈ m.matched) ∧ t ≠ []) ∧
    (∀ d, m.rfc = some d → (∀ c ∈ d, c ∈ m.matched) ∧ (∀ c ∈ d, c.isDigit) ∧ d ≠ []) ∧
    (∃ d, m.rfc = some d) ∧ m.draft = none ∧ (∃ t, m.sect = some t) := by
  rw [matchCitationMain.eq_def] at h
  split at h
  · rename_i hc ds rest hrfc
    split at h
    · rename_i g tok rest2 hgrp
      split at h
      · simp only [Option.some.injEq, Prod.mk.injEq] at h
        obtain ⟨hm, hrem⟩ := h
        subst hrem
        obtain ⟨e1, e2, ⟨preD, hpreD⟩, e4, e5, e6⟩ := matchRfcHead_split hrfc
        obtain ⟨g1, ⟨pre, hpre⟩, g3⟩ := matchSectionGroup_split hgrp
        subst hm
        simp only []
        refine ⟨?_, by simp [e2], ?_, ?_, ⟨ds, rfl⟩, by trivial, ⟨tok, rfl⟩⟩
        · rw [List.append_assoc, g1, e1]
        · intro t ht
          simp only [Option.some.injEq] at ht
          subst ht
          exact ⟨fun c hcm => by simp [hpre, List.mem_append, hcm], g3⟩
        · intro d hd
          simp only [Option.some.injEq] at hd
          subst hd
          exact ⟨fun c hcm => by simp [hpreD, List.mem_append, hcm], e4, e5⟩
      · simp at h
    · simp at h
  · simp at h

/-! ## The scan decomposition

`scanPieces` mirrors the recursion of `subAux` but records, instead of the
substituted output, the decomposition of the subject into unmatched
characters (passed through verbatim) and matches.  It is the analysis tool
behind the frame, escaping-count and visible-text theorems. -/

def scanPieces (matcher : List Char → Option (MatchRes × List Char)) :
    Nat → Bool → List Char → List (Char ⊕ MatchRes)
  | 0, _, s => s.map Sum.inl
  | _ + 1, _, [] => []
  | fuel + 1, prevWord, c :: rest =>
    if prevWord then Sum.inl c :: scanPieces matcher fuel (isWordChar c) rest
    else
      match matcher (c :: rest) with
      | some (m, rem) => Sum.inr m :: scanPieces matcher fuel (lastIsWord m.matched) rem
      | none => Sum.inl c :: scanPieces matcher fuel (isWordChar c) rest

/-- Reassemble the output of the substitution from the pieces. -/
def renderPieces (repl : MatchRes → List Char) : List (Char ⊕ MatchRes) → List Char
  | [] => []
  | Sum.inl c :: ps => c :: renderPieces repl ps
  | Sum.inr m :: ps => repl m ++ renderPieces repl ps

/-- Reassemble the subject from the pieces. -/
def sourcePieces : List (Char ⊕ MatchRes) → List Char
  | [] => []
  | Sum.inl c :: ps => c :: sourcePieces ps
  | Sum.inr m :: ps => m.matched ++ sourcePieces ps

/-- The number of citations the scan matched. -/
def countCitations : List (Char ⊕ MatchRes) → Nat
  | [] => 0
  | Sum.inl _ :: ps => countCitations ps
  | Sum.inr _ :: ps => countCitations ps + 1

theorem renderPieces_map_inl (repl : MatchRes → List Char) (s : List Char) :
    renderPieces repl (s.map Sum.inl) = s := by
  induction s with
  | nil => rfl
  | cons c rest ih => simp [renderPieces, ih]

theorem sourcePieces_map_inl (s : List Char) :
    sourcePieces (s.map Sum.inl) = s := by
  induction s with
  | nil => rfl
  | cons c rest ih => simp [sourcePieces, ih]

theorem countCitations_map_inl (s : List Char) :
    countCitations (s.map Sum.inl) = 0 := by
  induction s with
  | nil => rfl
  | cons c rest ih => simp [countCitations, ih]

/-- The substitution is exactly the rendering of the scan decomposition. -/
theorem subAux_eq_render (matcher : List Char → Option (MatchRes × List Char))
    (repl : MatchRes → List Char) :
    ∀ (fuel : Nat) (prev : Bool) (s : List Char),
    subAux matcher repl fuel prev s = renderPieces repl (scanPieces matcher fuel prev s) := by
  intro fuel
  induction fuel with
  | zero =>
    intro prev s
    simp [subAux, scanPieces, renderPieces_map_inl]
  | succ n ih =>
    intro prev s
    match s with
    | [] => rfl
    | c :: rest =>
      simp only [subAux, scanPieces]
      by_cases hp : prev
      · simp [hp, renderPieces, ih]
      · simp only [hp, if_false, Bool.false_eq_true]
        match hmc : matcher (c :: rest) with
        | some (m, rem) => simp [renderPieces, ih]
        | none => simp [renderPieces, ih]

/-- The scan decomposition reassembles the subject. -/
theorem sourcePieces_eq (matcher : List Char → Option (MatchRes × List Char))
    (hm : ∀ {s : List Char} {m : MatchRes} {rem : List Char},
      matcher s = some (m, rem) → m.matched ++ rem = s) :
    ∀ (fuel : Nat) (prev : Bool) (s : List Char),
    sourcePieces (scanPieces matcher fuel prev s) = s := by
  intro fuel
  induction fuel with
  | zero => intro prev s; simp [scanPieces, sourcePieces_map_inl]
  | succ n ih =>
    intro prev s
    match s with
    | [] => rfl
    | c :: rest =>
      simp only [scanPieces]
      by_cases hp : prev
      · simp [hp, sourcePieces, ih]
      · simp only [hp, if_false, Bool.false_eq_true]
        match hmc : matcher (c :: rest) with
        | some (m, rem) =>
          simp only [sourcePieces, ih]
          exact hm hmc
        | none => simp [sourcePieces, ih]

/-- The four raw markup characters that `escape` eliminates. -/
def isSpecial (c : Char) : Bool :=
  c = '<' || c = '>' || c = '"' || c = apos

/-- Counting a markup character in the substituted output: when the subject
contains no markup characters and every replacement contains exactly `k`
copies of `ch`, the output contains `k` copies per matched citation and none
elsewhere. -/
theorem subAux_count (matcher : List Char → Option (MatchRes × List Char))
    (repl : MatchRes → List Char) (ch : Char) (k : Nat)
    (hm : ∀ {s : List Char} {m : MatchRes} {rem : List Char},
      matcher s = some (m, rem) → m.matched ++ rem = s)
    (hr : ∀ (s : List Char) (m : MatchRes) (rem : List Char), matcher s = some (m, rem) →
      (∀ c ∈ s, isSpecial c = false) → (repl m).count ch = k)
    (hch : isSpecial ch = true) :
    ∀ (fuel : Nat) (prev : Bool) (s : List Char), (∀ c ∈ s, isSpecial c = false) →
      (subAux matcher repl fuel prev s).count ch =
        k * countCitations (scanPieces matcher fuel prev s) := by
  intro fuel
  induction fuel with
  | zero =>
    intro prev s hs
    simp only [subAux, scanPieces, countCitations_map_inl, Nat.mul_zero]
    rw [List.count_eq_zero]
    intro hmem
    rw [hs ch hmem] at hch
    exact absurd hch (by simp)
  | succ n ih =>
    intro prev s hs
    match s with
    | [] => simp [subAux, scanPieces, countCitations]
    | c :: rest =>
      have hcne : (c == ch) = false := by
        have h1 := hs c (by simp)
        rcases Bool.eq_false_iff.mp h1 with _
        simp only [beq_eq_false_iff_ne, ne_eq]
        intro hcc
        rw [hcc] at h1
        rw [h1] at hch
        exact absurd hch (by simp)
      have hrest : ∀ x ∈ rest, isSpecial x = false := fun x hx => hs x (by simp [hx])
      simp only [subAux, scanPieces]
      by_cases hp : prev
      · simp only [hp, if_true, countCitations, List.count_cons, hcne, if_false]
        simp [ih (isWordChar c) rest hrest]
      · simp only [hp, if_false, Bool.false_eq_true]
        match hmc : matcher (c :: rest) with
        | some (m, rem) =>
          have hrem : ∀ x ∈ rem, isSpecial x = false := by
            intro x hx
            have : x ∈ c :: rest := by
              rw [← hm hmc]
              simp [hx]
            exact hs x this
          simp only [countCitations, List.count_append]
          rw [hr (c :: rest) m rem hmc hs, ih (lastIsWord m.matched) rem hrem,
            Nat.mul_add, Nat.mul_one, Nat.add_comm]
        | none =>
          simp only [countCitations, List.count_cons, hcne, if_false]
          simp [ih (isWordChar c) rest hrest]

/-! ## Characters of the escaped subject and of the built fragments -/

theorem escapeChar_no_special {c x : Char} (hx : x ∈ escapeChar c) :
    isSpecial x = false := by
  unfold escapeChar at hx
  split_ifs at hx with h1 h2 h3 h4 h5
  · fin_cases hx <;> decide
  · fin_cases hx <;> decide
  · fin_cases hx <;> decide
  · fin_cases hx <;> decide
  · fin_cases hx <;> decide
  · simp only [List.mem_singleton] at hx
    subst hx
    simp [isSpecial, h2, h3, h4, h5]

theorem escapeList_no_special {s : List Char} {x : Char} (hx : x ∈ escapeList s) :
    isSpecial x = false := by
  induction s with
  | nil => simp [escapeList] at hx
  | cons c rest ih =>
    simp only [escapeList, List.mem_append] at hx
    rcases hx with hx | hx
    · exact escapeChar_no_special hx
    · exact ih hx

theorem count_eq_zero_of_no_special {l : List Char} {ch : Char}
    (hl : ∀ c ∈ l, isSpecial c = false) (hch : isSpecial ch = true) :
    l.count ch = 0 := by
  rw [List.count_eq_zero]
  intro hmem
  rw [hl ch hmem] at hch
  exact absurd hch (by simp)

theorem mem_stripWs {s : List Char} {x : Char} (hx : x ∈ stripWs s) : x ∈ s := by
  unfold stripWs at hx
  rw [List.mem_reverse] at hx
  have h1 := (List.dropWhile_sublist isSpace).mem hx
  rw [List.mem_reverse] at h1
  exact (List.dropWhile_sublist isSpace).mem h1

theorem mem_rstripPunct {s : List Char} {x : Char} (hx : x ∈ rstripPunct s) : x ∈ s := by
  unfold rstripPunct at hx
  rw [List.mem_reverse] at hx
  have h1 := (List.dropWhile_sublist isTrailPunct).mem hx
  rw [List.mem_reverse] at h1
  exact h1

theorem mem_rstripPunctMain {s : List Char} {x : Char} (hx : x ∈ rstripPunctMain s) :
    x ∈ s := by
  unfold rstripPunctMain at hx
  rw [List.mem_reverse] at hx
  have h1 := (List.dropWhile_sublist isTrailPunctMain).mem hx
  rw [List.mem_reverse] at h1
  exact h1

theorem mem_stripHyphens {s : List Char} {x : Char} (hx : x ∈ stripHyphens s) : x ∈ s := by
  unfold stripHyphens at hx
  rw [List.mem_reverse] at hx
  have h1 := (List.dropWhile_sublist (· = '-')).mem hx
  rw [List.mem_reverse] at h1
  exact (List.dropWhile_sublist (· = '-')).mem h1

theorem mem_collapseWsAux {x : Char} :
    ∀ {b : Bool} {s : List Char}, x ∈ collapseWsAux b s → x ∈ s ∨ x = ' ' := by
  intro b s
  induction s generalizing b with
  | nil => intro hx; simp [collapseWsAux] at hx
  | cons c rest ih =>
    intro hx
    unfold collapseWsAux at hx
    split_ifs at hx with h1 h2
    · rcases ih hx with h | h
      · exact Or.inl (by simp [h])
      · exact Or.inr h
    · simp only [List.mem_cons] at hx
      rcases hx with hx | hx
      · exact Or.inr hx
      · rcases ih hx with h | h
        · exact Or.inl (by simp [h])
        · exact Or.inr h
    · simp only [List.mem_cons] at hx
      rcases hx with hx | hx
      · exact Or.inl (by simp [hx])
      · rcases ih hx with h | h
        · exact Or.inl (by simp [h])
        · exact Or.inr h

theorem mem_slugifyAux {x : Char} :
    ∀ {b : Bool} {s : List Char}, x ∈ slugifyAux b s → x ∈ s ∨ x = '-' := by
  intro b s
  induction s generalizing b with
  | nil => intro hx; simp [slugifyAux] at hx
  | cons c rest ih =>
    intro hx
    unfold slugifyAux at hx
    split_ifs at hx with h1 h2
    · simp only [List.mem_cons] at hx
      rcases hx with hx | hx
      · exact Or.inl (by simp [hx])
      · rcases ih hx with h | h
        · exact Or.inl (by simp [h])
        · exact Or.inr h
    · rcases ih hx with h | h
      · exact Or.inl (by simp [h])
      · exact Or.inr h
    · simp only [List.mem_cons] at hx
      rcases hx with hx | hx
      · exact Or.inr hx
      · rcases ih hx with h | h
        · exact Or.inl (by simp [h])
        · exact Or.inr h

theorem appendixMatch_mem {s : List Char} {hd : Char} {tl : Option (List Char)}
    (h : appendixMatch s = some (hd, tl)) :
    hd ∈ s ∧ ∀ t, tl = some t → ∀ c ∈ t, c ∈ s := by
  rw [appendixMatch.eq_def] at h
  split at h
  · split at h
    · simp only [Option.some.injEq, Prod.mk.injEq] at h
      obtain ⟨h1, h2⟩ := h
      subst h1
      refine ⟨by simp, ?_⟩
      intro t ht
      rw [← h2] at ht
      simp at ht
    · simp at h
  · split at h
    · simp only [Option.some.injEq, Prod.mk.injEq] at h
      obtain ⟨h1, h2⟩ := h
      subst h1
      refine ⟨by simp, ?_⟩
      intro t ht
      rw [← h2] at ht
      simp only [Option.some.injEq] at ht
      subst ht
      intro c hc
      simp [hc]
    · simp at h
  · simp at h

/-- Every character of `anchorRules s` is a character of `s`, a hyphen, or a
lowercase ASCII letter. -/
theorem mem_anchorRules {s : List Char} {x : Char} (hx : x ∈ anchorRules s) :
    x ∈ s ∨ x = '-' ∨ ('a' ≤ x ∧ x ≤ 'z') := by
  unfold anchorRules at hx
  split_ifs at hx with h1
  · simp only [List.mem_append] at hx
    rcases hx with hx | hx
    · right
      fin_cases hx <;> decide
    · exact Or.inl hx
  · rcases hap : appendixMatch s with _ | ⟨hd, tl⟩
    · rw [hap] at hx
      simp only [List.mem_append] at hx
      rcases hx with hx | hx
      · right
        fin_cases hx <;> decide
      · rcases List.mem_map.mp hx with ⟨y, hy, hxy⟩
        have hys := mem_slugifyAux (show y ∈ slugifyAux false s from mem_stripHyphens hy)
        rcases pyLower_shape y with he | ⟨_, hl1, hl2⟩
        · rw [he] at hxy
          subst hxy
          rcases hys with h | h
          · exact Or.inl h
          · exact Or.inr (Or.inl h)
        · rw [hxy] at hl1 hl2
          exact Or.inr (Or.inr ⟨hl1, hl2⟩)
    · rw [hap] at hx
      obtain ⟨hhd, htl⟩ := appendixMatch_mem hap
      simp only [List.mem_append, List.mem_singleton] at hx
      rcases hx with (hx | hx) | hx
      · right
        fin_cases hx <;> decide
      · subst hx
        rcases pyLower_shape hd with he | ⟨_, hl1, hl2⟩
        · rw [he]; exact Or.inl hhd
        · exact Or.inr (Or.inr ⟨hl1, hl2⟩)
      · split_ifs at hx
        · simp at hx
        · simp only [List.mem_cons] at hx
          rcases hx with hx | hx
          · exact Or.inr (Or.inl hx)
          · rcases List.mem_map.mp hx with ⟨y, hy, hxy⟩
            cases tl with
            | none => simp at hy
            | some t =>
              have hys := htl t rfl y (by simpa using hy)
              split_ifs at hxy
              · exact Or.inr (Or.inl hxy.symm)
              · subst hxy; exact Or.inl hys

theorem lower_not_special {x : Char} (h1 : 'a' ≤ x) (h2 : x ≤ 'z') :
    isSpecial x = false := by
  by_contra hx
  rw [Bool.not_eq_false] at hx
  simp only [isSpecial, Bool.or_eq_true, decide_eq_true_eq] at hx
  rcases hx with ((hx | hx) | hx) | hx <;> subst hx
  · exact absurd h1 (by decide)
  · exact absurd h1 (by decide)
  · exact absurd h1 (by decide)
  · exact absurd h1 (by decide)

theorem star_not_special {x : Char} (h : isStarChar x = true) : isSpecial x = false := by
  by_contra hx
  rw [Bool.not_eq_false] at hx
  simp only [isSpecial, Bool.or_eq_true, decide_eq_true_eq] at hx
  rcases hx with ((hx | hx) | hx) | hx <;> subst hx <;>
    exact absurd h (by decide)

theorem space_not_special {x : Char} (h : isSpace x = true) : isSpecial x = false := by
  by_contra hx
  rw [Bool.not_eq_false] at hx
  simp only [isSpecial, Bool.or_eq_true, decide_eq_true_eq] at hx
  rcases hx with ((hx | hx) | hx) | hx <;> subst hx <;>
    exact absurd h (by decide)

/-- Every replacement that the filters linker substitutes contains exactly
two `<`, two `>`, two `"` and no `'` — the markup of the generated anchor
tag and nothing else — provided the subject is free of raw markup. -/
theorem replacement_count_filters (ch : Char) (hch : isSpecial ch = true)
    (s : List Char) (m : MatchRes) (rem : List Char) (h : matchCitation s = some (m, rem))
    (hs : ∀ c ∈ s, isSpecial c = false) :
    (RfcLinks._replacement m).count ch = (if ch = apos then 0 else 2) := by
  obtain ⟨e1, _e2, esec, erfc, edraft, hnd, _hdr, _hsn⟩ := matchCitation_split h
  have hmat : ∀ c ∈ m.matched, isSpecial c = false := by
    intro c hc
    exact hs c (by rw [← e1]; simp [hc])
  have hbase : ∀ x ∈ (match m.rfc with
      | some ds => "https://datatracker.ietf.org/doc/html/rfc".data ++ ds
      | none => "https://datatracker.ietf.org/doc/html/".data ++ (m.draft.getD []).map pyLower),
      isSpecial x = false := by
    cases hr : m.rfc with
    | some ds =>
      intro x hx
      simp only [List.mem_append] at hx
      rcases hx with hx | hx
      · revert x
        decide
      · exact hmat x ((erfc ds hr).1 x hx)
    | none =>
      obtain ⟨d, hd⟩ := hnd hr
      intro x hx
      simp only [hd, Option.getD_some, List.mem_append] at hx
      rcases hx with hx | hx
      · revert x
        decide
      · rcases List.mem_map.mp hx with ⟨y, hy, hxy⟩
        have hstar := (edraft d hd).2 y hy
        rcases pyLower_shape y with he | ⟨_, hl1, hl2⟩
        · rw [he] at hxy; subst hxy; exact star_not_special hstar
        · rw [hxy] at hl1 hl2; exact lower_not_special hl1 hl2
  have hfrag : ∀ x ∈ (match m.sect with
      | some raw => '#' :: RfcLinks._rfc_anchor (rstripPunct (collapseWs raw))
      | none => ([] : List Char)), isSpecial x = false := by
    cases hsec2 : m.sect with
    | none => intro x hx; simp at hx
    | some raw =>
      intro x hx
      simp only [List.mem_cons] at hx
      rcases hx with hx | hx
      · subst hx; decide
      · have hmem := mem_anchorRules
          (show x ∈ anchorRules (rstripPunct (stripWs (rstripPunct (collapseWs raw)))) from hx)
        rcases hmem with hx2 | hx2 | ⟨hl1, hl2⟩
        · have hx3 := mem_rstripPunct (mem_stripWs (mem_rstripPunct hx2))
          rcases mem_collapseWsAux (show x ∈ collapseWsAux false raw from hx3) with hx4 | hx4
          · exact hmat x ((esec raw hsec2).1 x hx4)
          · subst hx4; decide
        · subst hx2; decide
        · exact lower_not_special hl1 hl2
  unfold RfcLinks._replacement
  simp only [List.count_append]
  rw [count_eq_zero_of_no_special hbase hch, count_eq_zero_of_no_special hfrag hch,
    count_eq_zero_of_no_special hmat hch]
  simp only [isSpecial, Bool.or_eq_true, decide_eq_true_eq] at hch
  rcases hch with ((hc | hc) | hc) | hc <;> subst hc <;> decide

/-- The analogue of `replacement_count_filters` for `src/main.py`'s `_repl`. -/
theorem replacement_count_main (ch : Char) (hch : isSpecial ch = true)
    (s : List Char) (m : MatchRes) (rem : List Char)
    (h : matchCitationMain s = some (m, rem))
    (hs : ∀ c ∈ s, isSpecial c = false) :
    (MainPy._repl m).count ch = (if ch = apos then 0 else 2) := by
  obtain ⟨e1, _e2, esec, erfc, ⟨ds, hds⟩, _hdn, ⟨tok, htok⟩⟩ := matchCitationMain_split h
  have hmat : ∀ c ∈ m.matched, isSpecial c = false := by
    intro c hc
    exact hs c (by rw [← e1]; simp [hc])
  have hsec' : ∀ x ∈ rstripPunct (collapseWs ((m.sect).getD [])), isSpecial x = false := by
    intro x hx
    have hx3 := mem_rstripPunct hx
    rcases mem_collapseWsAux
        (show x ∈ collapseWsAux false ((m.sect).getD []) from hx3) with hx4 | hx4
    · refine hmat x ((esec tok htok).1 x ?_)
      simpa [htok] using hx4
    · subst hx4; decide
  have hds' : ∀ x ∈ (m.rfc).getD [], isSpecial x = false := by
    intro x hx
    exact hmat x ((erfc ds hds).1 x (by simpa [hds] using hx))
  have hfrag : ∀ x ∈ MainPy._rfc_anchor (rstripPunct (collapseWs ((m.sect).getD []))),
      isSpecial x = false := by
    intro x hx
    have hmem := mem_anchorRules (show x ∈ anchorRules
      (rstripPunctMain (stripWs (rstripPunct (collapseWs ((m.sect).getD []))))) from hx)
    rcases hmem with hx2 | hx2 | ⟨hl1, hl2⟩
    · exact hsec' x (mem_stripWs (mem_rstripPunctMain hx2))
    · subst hx2; decide
    · exact lower_not_special hl1 hl2
  have hesc : ∀ x ∈ escapeList (rstripPunct (collapseWs ((m.sect).getD []))),
      isSpecial x = false := fun x hx => escapeList_no_special hx
  unfold MainPy._repl
  simp only [List.count_append]
  rw [count_eq_zero_of_no_special hds' hch, count_eq_zero_of_no_special hfrag hch,
    count_eq_zero_of_no_special hesc hch]
  simp only [isSpecial, Bool.or_eq_true, decide_eq_true_eq] at hch
  rcases hch with ((hc | hc) | hc) | hc <;> subst hc <;> decide

theorem matchCitation_branch {s : List Char} {m : MatchRes} {rem : List Char}
    (h : matchCitation s = some (m, rem)) : m.rfc = none ∨ m.draft = none := by
  rw [matchCitation_eq, Option.orElse_eq_some'] at h
  rcases h with h | ⟨_, h⟩
  · split at h
    · split at h
      · simp only [Option.some.injEq, Prod.mk.injEq] at h
        rw [← h.1]
        exact Or.inr rfl
      · simp at h
    · simp at h
  · split at h
    · split at h
      · simp only [Option.some.injEq, Prod.mk.injEq] at h
        rw [← h.1]
        exact Or.inl rfl
      · simp at h
    · simp at h

/-- When the scan matched nothing, the substitution returns the subject. -/
theorem renderPieces_of_no_citations (repl : MatchRes → List Char) :
    ∀ ps : List (Char ⊕ MatchRes), countCitations ps = 0 →
    renderPieces repl ps = sourcePieces ps := by
  intro ps
  induction ps with
  | nil => intro _; rfl
  | cons p rest ih =>
    intro h
    match p with
    | Sum.inl c =>
      simp only [countCitations] at h
      simp [renderPieces, sourcePieces, ih h]
    | Sum.inr m => simp [countCitations] at h

theorem escapeList_append (a b : List Char) :
    escapeList (a ++ b) = escapeList a ++ escapeList b := by
  induction a with
  | nil => rfl
  | cons c rest ih => simp [escapeList, ih]

/-- `escapeList` around a single special character: the entity appears in the
escaped text at the position of the character. -/
theorem escapeList_entity (pre post : List Char) (c : Char) :
    escapeList (pre ++ c :: post) =
      escapeList pre ++ escapeChar c ++ escapeList post := by
  rw [escapeList_append]
  simp [escapeList, List.append_assoc]

theorem star_ne_hash {x : Char} (h : isStarChar x = true) : x ≠ '#' := by
  intro hx
  subst hx
  exact absurd h (by decide)

theorem space_ne_hash {x : Char} (h : isSpace x = true) : x ≠ '#' := by
  intro hx
  subst hx
  exact absurd h (by decide)

theorem digit_ne_hash {x : Char} (h : x.isDigit = true) : x ≠ '#' := by
  intro hx
  subst hx
  exact absurd h (by decide)

theorem lower_ne_hash {x : Char} (h1 : 'a' ≤ x) (h2 : x ≤ 'z') : x ≠ '#' := by
  intro hx
  subst hx
  exact absurd h1 (by decide)

/-- In the appendix pattern, the tail group is a nonempty numeric chain. -/
theorem appendixMatch_tail_numeric {s : List Char} {hd : Char} {t : List Char}
    (h : appendixMatch s = some (hd, some t)) : isNumericSection t = true := by
  rw [appendixMatch.eq_def] at h
  split at h
  · split at h
    · simp at h
    · simp at h
  · split at h
    · rename_i hcond
      simp only [Bool.and_eq_true] at hcond
      simp only [Option.some.injEq, Prod.mk.injEq] at h
      obtain ⟨_, h2⟩ := h
      rw [← h2]
      exact hcond.2
    · simp at h
  · simp at h

theorem isNumericSection_ne_nil {s : List Char} (h : isNumericSection s = true) :
    s ≠ [] := by
  intro hs
  subst hs
  exact absurd h (by decide)

/-- Only hyphens and alphanumeric characters of the input survive in a slug. -/
theorem mem_slugifyAux_alnum {x : Char} :
    ∀ {b : Bool} {s : List Char}, x ∈ slugifyAux b s →
      x = '-' ∨ (x ∈ s ∧ x.isAlphanum = true) := by
  intro b s
  induction s generalizing b with
  | nil => intro hx; simp [slugifyAux] at hx
  | cons c rest ih =>
    intro hx
    unfold slugifyAux at hx
    split_ifs at hx with h1 h2
    · simp only [List.mem_cons] at hx
      rcases hx with hx | hx
      · subst hx; exact Or.inr ⟨by simp, h1⟩
      · rcases ih hx with h | ⟨h3, h4⟩
        · exact Or.inl h
        · exact Or.inr ⟨by simp [h3], h4⟩
    · rcases ih hx with h | ⟨h3, h4⟩
      · exact Or.inl h
      · exact Or.inr ⟨by simp [h3], h4⟩
    · simp only [List.mem_cons] at hx
      rcases hx with hx | hx
      · exact Or.inl hx
      · rcases ih hx with h | ⟨h3, h4⟩
        · exact Or.inl h
        · exact Or.inr ⟨by simp [h3], h4⟩

theorem no_alnum_numeric_false {s : List Char} (h : ∀ c ∈ s, c.isAlphanum = false) :
    isNumericSection s = false := by
  match s with
  | [] => rfl
  | c :: rest =>
    have hc := h c (by simp)
    simp only [isNumericSection, Bool.and_eq_false_iff]
    left
    rw [Bool.eq_false_iff]
    intro hd
    rw [Char.isAlphanum, Char.isAlpha] at hc
    simp [hd] at hc

theorem no_alnum_appendix_none {s : List Char} (h : ∀ c ∈ s, c.isAlphanum = false) :
    appendixMatch s = none := by
  rw [appendixMatch.eq_def]
  split
  · rename_i c
    have hc := h c (by simp)
    have : c.isAlpha = false := by
      rw [Char.isAlphanum] at hc
      rcases Bool.or_eq_false_iff.mp hc with ⟨h1, _⟩
      exact h1
    simp [this]
  · rename_i c rest
    have hc := h c (by simp)
    have : c.isAlpha = false := by
      rw [Char.isAlphanum] at hc
      rcases Bool.or_eq_false_iff.mp hc with ⟨h1, _⟩
      exact h1
    simp [this]
  · rfl

/-! ## ASCII facts for `normalize_domain` -/

theorem pyLower_idem (c : Char) : pyLower (pyLower c) = pyLower c := by
  by_cases h1 : c = 'A'
  · subst h1; decide
  by_cases h2 : c = 'B'
  · subst h2; decide
  by_cases h3 : c = 'C'
  · subst h3; decide
  by_cases h4 : c = 'D'
  · subst h4; decide
  by_cases h5 : c = 'E'
  · subst h5; decide
  by_cases h6 : c = 'F'
  · subst h6; decide
  by_cases h7 : c = 'G'
  · subst h7; decide
  by_cases h8 : c = 'H'
  · subst h8; decide
  by_cases h9 : c = 'I'
  · subst h9; decide
  by_cases h10 : c = 'J'
  · subst h10; decide
  by_cases h11 : c = 'K'
  · subst h11; decide
  by_cases h12 : c = 'L'
  · subst h12; decide
  by_cases h13 : c = 'M'
  · subst h13; decide
  by_cases h14 : c = 'N'
  · subst h14; decide
  by_cases h15 : c = 'O'
  · subst h15; decide
  by_cases h16 : c = 'P'
  · subst h16; decide
  by_cases h17 : c = 'Q'
  · subst h17; decide
  by_cases h18 : c = 'R'
  · subst h18; decide
  by_cases h19 : c = 'S'
  · subst h19; decide
  by_cases h20 : c = 'T'
  · subst h20; decide
  by_cases h21 : c = 'U'
  · subst h21; decide
  by_cases h22 : c = 'V'
  · subst h22; decide
  by_cases h23 : c = 'W'
  · subst h23; decide
  by_cases h24 : c = 'X'
  · subst h24; decide
  by_cases h25 : c = 'Y'
  · subst h25; decide
  by_cases h26 : c = 'Z'
  · subst h26; decide
  simp only [pyLower, h1, h2, h3, h4, h5, h6, h7, h8, h9, h10, h11, h12, h13, h14, h15, h16, h17, h18, h19, h20, h21, h22, h23, h24, h25, h26, if_false, if_neg, not_false_eq_true]

theorem pyLower_ascii {c : Char} (h : c.toNat < 128) : (pyLower c).toNat < 128 := by
  by_cases h1 : c = 'A'
  · subst h1; decide
  by_cases h2 : c = 'B'
  · subst h2; decide
  by_cases h3 : c = 'C'
  · subst h3; decide
  by_cases h4 : c = 'D'
  · subst h4; decide
  by_cases h5 : c = 'E'
  · subst h5; decide
  by_cases h6 : c = 'F'
  · subst h6; decide
  by_cases h7 : c = 'G'
  · subst h7; decide
  by_cases h8 : c = 'H'
  · subst h8; decide
  by_cases h9 : c = 'I'
  · subst h9; decide
  by_cases h10 : c = 'J'
  · subst h10; decide
  by_cases h11 : c = 'K'
  · subst h11; decide
  by_cases h12 : c = 'L'
  · subst h12; decide
  by_cases h13 : c = 'M'
  · subst h13; decide
  by_cases h14 : c = 'N'
  · subst h14; decide
  by_cases h15 : c = 'O'
  · subst h15; decide
  by_cases h16 : c = 'P'
  · subst h16; decide
  by_cases h17 : c = 'Q'
  · subst h17; decide
  by_cases h18 : c = 'R'
  · subst h18; decide
  by_cases h19 : c = 'S'
  · subst h19; decide
  by_cases h20 : c = 'T'
  · subst h20; decide
  by_cases h21 : c = 'U'
  · subst h21; decide
  by_cases h22 : c = 'V'
  · subst h22; decide
  by_cases h23 : c = 'W'
  · subst h23; decide
  by_cases h24 : c = 'X'
  · subst h24; decide
  by_cases h25 : c = 'Y'
  · subst h25; decide
  by_cases h26 : c = 'Z'
  · subst h26; decide
  simp only [pyLower, h1, h2, h3, h4, h5, h6, h7, h8, h9, h10, h11, h12, h13, h14, h15, h16, h17, h18, h19, h20, h21, h22, h23, h24, h25, h26, if_false, if_neg, not_false_eq_true]
  exact h

theorem ascii_not_zero_width {c : Char} (h : c.toNat < 128) : isZeroWidth c = false := by
  rw [Bool.eq_false_iff]
  intro hz
  simp only [isZeroWidth, Bool.or_eq_true, Bool.and_eq_true, decide_eq_true_eq] at hz
  rcases hz with ⟨h1, _⟩ | h1
  · have : 0x200B ≤ c.toNat := h1
    omega
  · subst h1
    simp at h

theorem ascii_ccc_zero {c : Char} (h : c.toNat < 128) : ccc c = 0 := by
  unfold ccc
  rw [if_neg]
  intro hc
  subst hc
  simp at h

theorem ascii_decomp_id {c : Char} (h : c.toNat < 128) : canonicalDecomp c = [c] := by
  unfold canonicalDecomp
  rw [if_neg]
  intro hc
  subst hc
  simp at h

theorem ascii_composePair_none {a b : Char} (hb : b.toNat < 128) :
    composePair a b = none := by
  unfold composePair
  rw [if_neg]
  simp only [Bool.and_eq_true, decide_eq_true_eq, not_and]
  intro _ hbe
  subst hbe
  simp at hb

theorem bubblePass_ascii {a : Char} {l : List Char}
    (hl : ∀ c ∈ l, c.toNat < 128) : bubblePass a l = a :: l := by
  induction l generalizing a with
  | nil => rfl
  | cons b rest ih =>
    unfold bubblePass
    rw [if_neg]
    · rw [ih (fun c hc => hl c (by simp [hc]))]
    · simp only [Bool.and_eq_true, decide_eq_true_eq, not_and]
      intro hb
      rw [ascii_ccc_zero (hl b (by simp))] at hb
      omega

theorem reorderN_ascii {l : List Char} (hl : ∀ c ∈ l, c.toNat < 128) :
    ∀ n, reorderN n l = l := by
  intro n
  induction n with
  | zero => rfl
  | succ k ih =>
    have hpass : reorderPass l = l := by
      match l with
      | [] => rfl
      | c :: rest =>
        unfold reorderPass
        exact bubblePass_ascii (fun x hx => hl x (by simp [hx]))
    unfold reorderN
    rw [hpass]
    exact ih

theorem nfcComposeAux_ascii {a : Char} {l : List Char} (ha : a.toNat < 128)
    (hl : ∀ c ∈ l, c.toNat < 128) : nfcComposeAux a [] 0 l = a :: l := by
  induction l generalizing a with
  | nil => rfl
  | cons b rest ih =>
    have hb : b.toNat < 128 := hl b (by simp)
    unfold nfcComposeAux
    rw [ascii_ccc_zero hb]
    simp only [List.isEmpty_nil, if_true, ascii_composePair_none hb, if_pos]
    rw [ih hb (fun c hc => hl c (by simp [hc]))]
    rfl

theorem nfc_ascii {l : List Char} (hl : ∀ c ∈ l, c.toNat < 128) : nfc l = l := by
  unfold nfc
  have hdec : l.flatMap canonicalDecomp = l := by
    induction l with
    | nil => rfl
    | cons c rest ih =>
      have hc := hl c (by simp)
      rw [List.flatMap_cons, ascii_decomp_id hc,
        ih (fun x hx => hl x (by simp [hx]))]
      rfl
  rw [hdec]
  unfold canonicalReorder
  rw [reorderN_ascii hl]
  match l, hl with
  | [], _ => rfl
  | c :: rest, hl =>
    have hc := hl c (by simp)
    unfold nfcCompose
    rw [ascii_ccc_zero hc, if_pos rfl]
    exact nfcComposeAux_ascii hc (fun x hx => hl x (by simp [hx]))

/-- The number of citations the filters linker matches in the escaped form
of `value` (the matches that `link_rfc` turns into anchors). -/
def RfcLinks.citationCount (value : List Char) : Nat :=
  countCitations (scanPieces matchCitation (escapeList value).length false (escapeList value))

/-- The number of citations `src/main.py`'s linker matches in the escaped
form of `value`. -/
def MainPy.citationCount (value : List Char) : Nat :=
  countCitations (scanPieces matchCitationMain (escapeList value).length false (escapeList value))

/-- C3: both linkers HTML-escape the whole (arbitrary, untrusted) input
exactly once before matching — `link_rfc` is by definition the substitution
run on `escape(value)` — and no markup originating from the input survives:
the escaped subject contains no raw `<`, `>`, `"` or `'` (each such input
character appears as its entity at its position), and the only raw markup
characters of the final output are those of the generated anchor tags —
exactly two `<`, two `>` and two `"` per matched citation, and no `'`. -/
theorem claim_C3 (value : List Char) :
    (RfcLinks.link_rfc_list value =
      subAux matchCitation RfcLinks._replacement (escapeList value).length false
        (escapeList value)) ∧
    (MainPy.link_rfc_list value =
      subAux matchCitationMain MainPy._repl (escapeList value).length false
        (escapeList value)) ∧
    (escapeList value).count '<' = 0 ∧ (escapeList value).count '>' = 0 ∧
    (escapeList value).count '"' = 0 ∧ (escapeList value).count apos = 0 ∧
    (∀ pre post, value = pre ++ '<' :: post →
      escapeList value = escapeList pre ++ "&lt;".data ++ escapeList post) ∧
    (∀ pre post, value = pre ++ '>' :: post →
      escapeList value = escapeList pre ++ "&gt;".data ++ escapeList post) ∧
    (∀ pre post, value = pre ++ '&' :: post →
      escapeList value = escapeList pre ++ "&amp;".data ++ escapeList post) ∧
    (∀ pre post, value = pre ++ '"' :: post →
      escapeList value = escapeList pre ++ "&#34;".data ++ escapeList post) ∧
    (∀ pre post, value = pre ++ apos :: post →
      escapeList value = escapeList pre ++ "&#39;".data ++ escapeList post) ∧
    (RfcLinks.link_rfc_list value).count '<' = 2 * RfcLinks.citationCount value ∧
    (RfcLinks.link_rfc_list value).count '>' = 2 * RfcLinks.citationCount value ∧
    (RfcLinks.link_rfc_list value).count '"' = 2 * RfcLinks.citationCount value ∧
    (RfcLinks.link_rfc_list value).count apos = 0 ∧
    (MainPy.link_rfc_list value).count '<' = 2 * MainPy.citationCount value ∧
    (MainPy.link_rfc_list value).count '>' = 2 * MainPy.citationCount value ∧
    (MainPy.link_rfc_list value).count '"' = 2 * MainPy.citationCount value ∧
    (MainPy.link_rfc_list value).count apos = 0 := by
  have hesc : ∀ c ∈ escapeList value, isSpecial c = false :=
    fun c hc => escapeList_no_special hc
  have hcountF : ∀ ch : Char, isSpecial ch = true →
      (RfcLinks.link_rfc_list value).count ch =
        (if ch = apos then 0 else 2) * RfcLinks.citationCount value := by
    intro ch hch
    exact subAux_count matchCitation RfcLinks._replacement ch (if ch = apos then 0 else 2)
      (fun h => (matchCitation_split h).1)
      (fun s m rem hm hs => replacement_count_filters ch hch s m rem hm hs)
      hch (escapeList value).length false (escapeList value) hesc
  have hcountM : ∀ ch : Char, isSpecial ch = true →
      (MainPy.link_rfc_list value).count ch =
        (if ch = apos then 0 else 2) * MainPy.citationCount value := by
    intro ch hch
    exact subAux_count matchCitationMain MainPy._repl ch (if ch = apos then 0 else 2)
      (fun h => (matchCitationMain_split h).1)
      (fun s m rem hm hs => replacement_count_main ch hch s m rem hm hs)
      hch (escapeList value).length false (escapeList value) hesc
  refine ⟨rfl, rfl,
    count_eq_zero_of_no_special hesc (by decide),
    count_eq_zero_of_no_special hesc (by decide),
    count_eq_zero_of_no_special hesc (by decide),
    count_eq_zero_of_no_special hesc (by decide),
    ?_, ?_, ?_, ?_, ?_, ?_, ?_, ?_, ?_, ?_, ?_, ?_, ?_⟩
  · intro pre post h; subst h; rw [escapeList_entity]; rfl
  · intro pre post h; subst h; rw [escapeList_entity]; rfl
  · intro pre post h; subst h; rw [escapeList_entity]; rfl
  · intro pre post h; subst h; rw [escapeList_entity]; rfl
  · intro pre post h; subst h; rw [escapeList_entity]; rfl
  · have := hcountF '<' (by decide)
    rwa [if_neg (by decide)] at this
  · have := hcountF '>' (by decide)
    rwa [if_neg (by decide)] at this
  · have := hcountF '"' (by decide)
    rwa [if_neg (by decide)] at this
  · have := hcountF apos (by decide)
    rw [if_pos rfl] at this
    simpa using this
  · have := hcountM '<' (by decide)
    rwa [if_neg (by decide)] at this
  · have := hcountM '>' (by decide)
    rwa [if_neg (by decide)] at this
  · have := hcountM '"' (by decide)
    rwa [if_neg (by decide)] at this
  · have := hcountM apos (by decide)
    rw [if_pos rfl] at this
    simpa using this

/-- Witness for C3 at a concrete input: the `<` of the input is entity-encoded
in the escaped subject. -/
theorem claim_C3_witness :
    escapeList "a<b".data = escapeList "a".data ++ "&lt;".data ++ escapeList "b".data :=
  (claim_C3 "a<b".data).2.2.2.2.2.2.1 "a".data "b".data rfl

/-- C8 (frame): the output of each linker is the rendering of a decomposition
of the escaped input into unmatched characters — passed through exactly as
they were after escaping — and matched citation spans; in particular, when
the linker matches no citation the output is the HTML-escaped input
unchanged, and the empty string yields empty output. -/
theorem claim_C8 (value : List Char) :
    (RfcLinks.link_rfc_list value = renderPieces RfcLinks._replacement
      (scanPieces matchCitation (escapeList value).length false (escapeList value))) ∧
    (sourcePieces (scanPieces matchCitation (escapeList value).length false
      (escapeList value)) = escapeList value) ∧
    (RfcLinks.citationCount value = 0 → RfcLinks.link_rfc_list value = escapeList value) ∧
    (MainPy.link_rfc_list value = renderPieces MainPy._repl
      (scanPieces matchCitationMain (escapeList value).length false (escapeList value))) ∧
    (sourcePieces (scanPieces matchCitationMain (escapeList value).length false
      (escapeList value)) = escapeList value) ∧
    (MainPy.citationCount value = 0 → MainPy.link_rfc_list value = escapeList value) ∧
    RfcLinks.link_rfc_list [] = [] ∧ MainPy.link_rfc_list [] = [] := by
  have hrenF := subAux_eq_render matchCitation RfcLinks._replacement
    (escapeList value).length false (escapeList value)
  have hsrcF := sourcePieces_eq matchCitation (fun h => (matchCitation_split h).1)
    (escapeList value).length false (escapeList value)
  have hrenM := subAux_eq_render matchCitationMain MainPy._repl
    (escapeList value).length false (escapeList value)
  have hsrcM := sourcePieces_eq matchCitationMain (fun h => (matchCitationMain_split h).1)
    (escapeList value).length false (escapeList value)
  refine ⟨hrenF, hsrcF, ?_, hrenM, hsrcM, ?_, rfl, rfl⟩
  · intro h0
    calc RfcLinks.link_rfc_list value
        = renderPieces RfcLinks._replacement (scanPieces matchCitation
            (escapeList value).length false (escapeList value)) := hrenF
      _ = sourcePieces (scanPieces matchCitation (escapeList value).length false
            (escapeList value)) := renderPieces_of_no_citations _ _ h0
      _ = escapeList value := hsrcF
  · intro h0
    calc MainPy.link_rfc_list value
        = renderPieces MainPy._repl (scanPieces matchCitationMain
            (escapeList value).length false (escapeList value)) := hrenM
      _ = sourcePieces (scanPieces matchCitationMain (escapeList value).length false
            (escapeList value)) := renderPieces_of_no_citations _ _ h0
      _ = escapeList value := hsrcM

/-- Witness for C8 at a concrete citation-free input. -/
theorem claim_C8_witness :
    RfcLinks.link_rfc_list "no citations here.".data = escapeList "no citations here.".data :=
  (claim_C8 "no citations here.".data).2.2.1 (by decide)

/-- C1 counterexample: for `src/main.py`'s `link_rfc`, the visible text of the
emitted anchor is NOT the matched span.  On `"RFC5322 section 3"` the whole
input is the matched span, yet the emitted anchor's text is the reformatted
`"RFC 5322 § 3"`; the anchor whose text would be the original span does not
occur in the output. -/
theorem claim_C1_counterexample :
    MainPy.link_rfc "RFC5322 section 3" =
      "<a href=\"https://www.rfc-editor.org/rfc/rfc5322.html#section-3\">RFC 5322 § 3</a>" ∧
    ¬ (">RFC5322 section 3</a>".data <:+: (MainPy.link_rfc "RFC5322 section 3").data) := by
  constructor
  · decide
  · decide

/-- C1 (amended): for `src/filters/rfc_links.py`, every replacement the linker
substitutes is an anchor whose visible text is byte-for-byte the matched span
of the (escaped) input — `_replacement` wraps `m.group(0)` itself — and the
matched span is exactly the piece of the subject the match consumed.
`src/main.py`'s linker instead rebuilds the text as `RFC {n} § {section}`. -/
theorem claim_C1_amended (s : List Char) (m : MatchRes) (rem : List Char)
    (h : matchCitation s = some (m, rem)) :
    (∃ url, RfcLinks._replacement m =
      "<a href=\"".data ++ url ++ "\">".data ++ m.matched ++ "</a>".data) ∧
    s = m.matched ++ rem := by
  constructor
  · refine ⟨(match m.rfc with
      | some ds => "https://datatracker.ietf.org/doc/html/rfc".data ++ ds
      | none => "https://datatracker.ietf.org/doc/html/".data ++ (m.draft.getD []).map pyLower)
      ++ (match m.sect with
      | some raw => '#' :: RfcLinks._rfc_anchor (rstripPunct (collapseWs raw))
      | none => ([] : List Char)), ?_⟩
    unfold RfcLinks._replacement
    simp [List.append_assoc]
  · exact ((matchCitation_split h).1).symm

/-- Witness for C1 (amended) at `"RFC 1 § 2"`: the whole input is consumed as
the matched span. -/
theorem claim_C1_amended_witness :
    "RFC 1 § 2".data =
      ({ matched := "RFC 1 § 2".data, rfc := some ['1'], draft := none,
         sect := some ['2'] } : MatchRes).matched ++ [] :=
  (claim_C1_amended "RFC 1 § 2".data
    { matched := "RFC 1 § 2".data, rfc := some ['1'], draft := none, sect := some ['2'] }
    [] (by decide)).2

/-- C2 counterexample: `src/main.py`'s pattern requires the section part, so
`link("RFC 5322")` does not match at all there — the output is the plain
escaped text with no anchor, not a link to the document root. -/
theorem claim_C2_counterexample :
    MainPy.link_rfc "RFC 5322" = "RFC 5322" ∧
    ¬ ("<a".data <:+: (MainPy.link_rfc "RFC 5322").data) := by
  constructor
  · decide
  · decide

/-- Shape of the filters replacement when the match has no section and an
RFC number: no fragment is appended (no `#` anywhere). -/
theorem replacement_rfc_root (mat ds : List Char) (draftg : Option (List Char)) :
    RfcLinks._replacement { matched := mat, rfc := some ds, draft := draftg, sect := none } =
      "<a href=\"".data ++ ("https://datatracker.ietf.org/doc/html/rfc".data ++ ds)
        ++ "\">".data ++ mat ++ "</a>".data := by
  unfold RfcLinks._replacement
  simp [List.append_assoc]

/-- Shape of the filters replacement when the match has no section and a
draft name: no fragment is appended. -/
theorem replacement_draft_root (mat : List Char) (draftg : Option (List Char)) :
    RfcLinks._replacement { matched := mat, rfc := none, draft := draftg, sect := none } =
      "<a href=\"".data ++ ("https://datatracker.ietf.org/doc/html/".data
        ++ (draftg.getD []).map pyLower)
        ++ "\">".data ++ mat ++ "</a>".data := by
  unfold RfcLinks._replacement
  simp [List.append_assoc]

/-- C2 (amended): for `src/filters/rfc_links.py`, a citation without a section
still matches and is linked to the document root: the replacement built for a
match with no section group contains no `#` at all, and concretely
`link("RFC 5322")` produces an anchor-free-fragment link whose visible text is
exactly `"RFC 5322"`.  `src/main.py`'s linker leaves such citations unlinked. -/
theorem claim_C2_amended :
    (∀ (s : List Char) (m : MatchRes) (rem : List Char),
      matchCitation s = some (m, rem) → m.sect = none →
      '#' ∉ RfcLinks._replacement m) ∧
    RfcLinks.link_rfc "RFC 5322" =
      "<a href=\"https://datatracker.ietf.org/doc/html/rfc5322\">RFC 5322</a>" ∧
    MainPy.link_rfc "RFC 5322" = "RFC 5322" := by
  refine ⟨?_, by decide, by decide⟩
  intro s m rem h hsec
  obtain ⟨e1, _e2, _esec, erfc, edraft, hnd, _hdn, hsn⟩ := matchCitation_split h
  intro hmem
  obtain ⟨mat, rfcg, draftg, sectg⟩ := m
  have hsec2 : sectg = none := hsec
  subst hsec2
  have hmat : ∀ c ∈ mat, isStarChar c = true ∨ isSpace c = true := by
    intro c hc
    exact hsn rfl c hc
  cases hr : rfcg with
  | some ds =>
    rw [hr] at hmem
    rw [replacement_rfc_root] at hmem
    simp only [List.mem_append] at hmem
    rcases hmem with (((hx | hx | hx) | hx) | hx) | hx
    · exact absurd hx (by decide)
    · exact absurd hx (by decide)
    · have hds := (erfc ds (by rw [hr])).2.1 '#' hx
      exact absurd hds (by decide)
    · exact absurd hx (by decide)
    · have hz2 := hmat '#' hx
      rcases hz2 with hz | hz
      · exact star_ne_hash hz rfl
      · exact space_ne_hash hz rfl
    · exact absurd hx (by decide)
  | none =>
    obtain ⟨d, hd⟩ := hnd (by rw [hr])
    rw [hr] at hmem
    rw [replacement_draft_root] at hmem
    simp only [List.mem_append] at hmem
    rcases hmem with (((hx | hx | hx) | hx) | hx) | hx
    · exact absurd hx (by decide)
    · exact absurd hx (by decide)
    · rcases List.mem_map.mp hx with ⟨y, hy, hxy⟩
      have hyd := pyLower_fix hxy (by decide)
      subst hyd
      have hstar := (edraft d hd).2 _ (by simpa [show draftg = some d from hd] using hy)
      exact star_ne_hash hstar rfl
    · exact absurd hx (by decide)
    · have hz2 := hmat '#' hx
      rcases hz2 with hz | hz
      · exact star_ne_hash hz rfl
      · exact space_ne_hash hz rfl
    · exact absurd hx (by decide)

/-- Witness for C2 (amended): the match of `"RFC 5322"` has no section and
its replacement contains no `#`. -/
theorem claim_C2_amended_witness :
    '#' ∉ RfcLinks._replacement
      { matched := "RFC 5322".data, rfc := some "5322".data, draft := none, sect := none } :=
  claim_C2_amended.1 "RFC 5322".data
    { matched := "RFC 5322".data, rfc := some "5322".data, draft := none, sect := none }
    [] (by decide) rfl

theorem anchorRules_numeric {n : List Char} (h : isNumericSection n = true) :
    anchorRules n = "section-".data ++ n := by
  unfold anchorRules
  rw [if_pos h]

theorem anchorRules_appendix_tail {n : List Char} {hd : Char} {t : List Char}
    (h1 : isNumericSection n = false) (h2 : appendixMatch n = some (hd, some t)) :
    anchorRules n = "appendix-".data ++ [pyLower hd]
      ++ '-' :: t.map (fun c => if c = '.' then '-' else c) := by
  have ht : t ≠ [] := isNumericSection_ne_nil (appendixMatch_tail_numeric h2)
  have htm : (t.map (fun c => if c = '.' then '-' else c)).isEmpty = false := by
    rw [List.isEmpty_eq_false]
    simpa using ht
  unfold anchorRules
  rw [h1, h2]
  simp [htm]

theorem anchorRules_appendix_notail {n : List Char} {hd : Char}
    (h1 : isNumericSection n = false) (h2 : appendixMatch n = some (hd, none)) :
    anchorRules n = "appendix-".data ++ [pyLower hd] := by
  unfold anchorRules
  rw [h1, h2]
  simp

theorem anchorRules_fallback {n : List Char}
    (h1 : isNumericSection n = false) (h2 : appendixMatch n = none) :
    anchorRules n = "section-".data ++ (stripHyphens (slugify n)).map pyLower := by
  unfold anchorRules
  rw [h1, h2]
  simp

/-- C4: both anchor mappers apply the three rules in order with first match
winning, on the trimmed/normalized section value: a pure dotted-numeric value
`n` yields `section-` ++ `n` unchanged; otherwise a single letter with an
optional dotted-numeric tail yields `appendix-` plus the lowercased letter
and the tail with dots replaced by hyphens; otherwise the slug fallback
applies; e.g. `"A.1.2"` maps to `appendix-a-1-2` in both files. -/
theorem claim_C4 (sec : List Char) :
    (isNumericSection (rstripPunct (stripWs sec)) = true →
      RfcLinks._rfc_anchor sec = "section-".data ++ rstripPunct (stripWs sec)) ∧
    (isNumericSection (rstripPunctMain (stripWs sec)) = true →
      MainPy._rfc_anchor sec = "section-".data ++ rstripPunctMain (stripWs sec)) ∧
    (∀ (hd : Char) (t : List Char), isNumericSection (rstripPunct (stripWs sec)) = false →
      appendixMatch (rstripPunct (stripWs sec)) = some (hd, some t) →
      RfcLinks._rfc_anchor sec = "appendix-".data ++ [pyLower hd]
        ++ '-' :: t.map (fun c => if c = '.' then '-' else c)) ∧
    (∀ hd : Char, isNumericSection (rstripPunct (stripWs sec)) = false →
      appendixMatch (rstripPunct (stripWs sec)) = some (hd, none) →
      RfcLinks._rfc_anchor sec = "appendix-".data ++ [pyLower hd]) ∧
    (∀ (hd : Char) (t : List Char), isNumericSection (rstripPunctMain (stripWs sec)) = false →
      appendixMatch (rstripPunctMain (stripWs sec)) = some (hd, some t) →
      MainPy._rfc_anchor sec = "appendix-".data ++ [pyLower hd]
        ++ '-' :: t.map (fun c => if c = '.' then '-' else c)) ∧
    (∀ hd : Char, isNumericSection (rstripPunctMain (stripWs sec)) = false →
      appendixMatch (rstripPunctMain (stripWs sec)) = some (hd, none) →
      MainPy._rfc_anchor sec = "appendix-".data ++ [pyLower hd]) ∧
    (isNumericSection (rstripPunct (stripWs sec)) = false →
      appendixMatch (rstripPunct (stripWs sec)) = none →
      RfcLinks._rfc_anchor sec =
        "section-".data ++ (stripHyphens (slugify (rstripPunct (stripWs sec)))).map pyLower) ∧
    (isNumericSection (rstripPunctMain (stripWs sec)) = false →
      appendixMatch (rstripPunctMain (stripWs sec)) = none →
      MainPy._rfc_anchor sec =
        "section-".data ++ (stripHyphens (slugify (rstripPunctMain (stripWs sec)))).map pyLower) ∧
    RfcLinks._rfc_anchor "A.1.2".data = "appendix-a-1-2".data ∧
    MainPy._rfc_anchor "A.1.2".data = "appendix-a-1-2".data := by
  refine ⟨fun h => anchorRules_numeric h, fun h => anchorRules_numeric h,
    fun hd t h1 h2 => anchorRules_appendix_tail h1 h2,
    fun hd h1 h2 => anchorRules_appendix_notail h1 h2,
    fun hd t h1 h2 => anchorRules_appendix_tail h1 h2,
    fun hd h1 h2 => anchorRules_appendix_notail h1 h2,
    fun h1 h2 => anchorRules_fallback h1 h2,
    fun h1 h2 => anchorRules_fallback h1 h2,
    by decide, by decide⟩

/-- Witness for C4: the numeric rule at `"4.1.2"` and the appendix rule at
`"A.1.2"`, with the hypotheses evaluated concretely. -/
theorem claim_C4_witness :
    RfcLinks._rfc_anchor "4.1.2".data = "section-".data ++ rstripPunct (stripWs "4.1.2".data) ∧
    MainPy._rfc_anchor "A.1.2".data = "appendix-".data ++ [pyLower 'A']
      ++ '-' :: "1.2".data.map (fun c => if c = '.' then '-' else c) :=
  ⟨(claim_C4 "4.1.2".data).1 (by decide),
   (claim_C4 "A.1.2".data).2.2.2.2.1 'A' "1.2".data (by decide) (by decide)⟩

theorem stripHyphens_all_hyphens {l : List Char} (h : ∀ c ∈ l, c = '-') :
    stripHyphens l = [] := by
  unfold stripHyphens
  have h1 : l.dropWhile (· = '-') = [] := by
    rw [List.dropWhile_eq_nil_iff]
    intro a ha
    simp [h a ha]
  rw [h1]
  rfl

/-- C9: the anchor mappers are total Lean functions; section text matching
neither the numeric nor the appendix rule always falls through to the slug
fallback (non-alphanumeric runs to single hyphens, strip hyphens, lowercase,
prefix `section-`), and section text with no alphanumeric character at all
yields the literal degenerate fragment `section-` in both files. -/
theorem claim_C9 :
    (∀ sec : List Char, isNumericSection (rstripPunct (stripWs sec)) = false →
      appendixMatch (rstripPunct (stripWs sec)) = none →
      RfcLinks._rfc_anchor sec =
        "section-".data ++ (stripHyphens (slugify (rstripPunct (stripWs sec)))).map pyLower) ∧
    (∀ sec : List Char, isNumericSection (rstripPunctMain (stripWs sec)) = false →
      appendixMatch (rstripPunctMain (stripWs sec)) = none →
      MainPy._rfc_anchor sec =
        "section-".data ++ (stripHyphens (slugify (rstripPunctMain (stripWs sec)))).map pyLower) ∧
    (∀ sec : List Char, (∀ c ∈ sec, c.isAlphanum = false) →
      RfcLinks._rfc_anchor sec = "section-".data ∧
      MainPy._rfc_anchor sec = "section-".data) := by
  refine ⟨fun sec h1 h2 => anchorRules_fallback h1 h2,
    fun sec h1 h2 => anchorRules_fallback h1 h2, ?_⟩
  intro sec hsec
  constructor
  · have hn : ∀ c ∈ rstripPunct (stripWs sec), c.isAlphanum = false :=
      fun c hc => hsec c (mem_stripWs (mem_rstripPunct hc))
    have hslug : ∀ c ∈ slugify (rstripPunct (stripWs sec)), c = '-' := by
      intro c hc
      rcases mem_slugifyAux_alnum (show c ∈ slugifyAux false _ from hc) with h | ⟨h3, h4⟩
      · exact h
      · rw [hn c h3] at h4
        exact absurd h4 (by simp)
    rw [show RfcLinks._rfc_anchor sec = anchorRules (rstripPunct (stripWs sec)) from rfl,
      anchorRules_fallback (no_alnum_numeric_false hn) (no_alnum_appendix_none hn),
      stripHyphens_all_hyphens hslug]
    rfl
  · have hn : ∀ c ∈ rstripPunctMain (stripWs sec), c.isAlphanum = false :=
      fun c hc => hsec c (mem_stripWs (mem_rstripPunctMain hc))
    have hslug : ∀ c ∈ slugify (rstripPunctMain (stripWs sec)), c = '-' := by
      intro c hc
      rcases mem_slugifyAux_alnum (show c ∈ slugifyAux false _ from hc) with h | ⟨h3, h4⟩
      · exact h
      · rw [hn c h3] at h4
        exact absurd h4 (by simp)
    rw [show MainPy._rfc_anchor sec = anchorRules (rstripPunctMain (stripWs sec)) from rfl,
      anchorRules_fallback (no_alnum_numeric_false hn) (no_alnum_appendix_none hn),
      stripHyphens_all_hyphens hslug]
    rfl

/-- Witness for C9: the entirely-punctuation section `"..."` yields the
degenerate fragment `section-`, and a fallback instance with content. -/
theorem claim_C9_witness :
    RfcLinks._rfc_anchor "...".data = "section-".data ∧
    MainPy._rfc_anchor "&&&".data = "section-".data :=
  ⟨(claim_C9.2.2 "...".data (by decide)).1, (claim_C9.2.2 "&&&".data (by decide)).2⟩

/-- C5 counterexample: feeding the filters linker its own output double-links.
On `"RFC 9116 § 1"` the first application wraps the citation in an anchor;
the second application re-escapes that output and wraps the already-linked
span (glued to the `&lt` of the escaped close tag) in a fresh anchor. -/
theorem claim_C5_counterexample :
    RfcLinks.link_rfc (RfcLinks.link_rfc "RFC 9116 § 1") =
      "&lt;a href=&#34;https://datatracker.ietf.org/doc/html/rfc9116#section-1&#34;&gt;<a href=\"https://datatracker.ietf.org/doc/html/rfc9116#section-1-lt\">RFC 9116 § 1&lt</a>;/a&gt;" ∧
    ("<a href=\"https://datatracker.ietf.org/doc/html/rfc9116#section-1-lt\">RFC 9116 § 1&lt</a>").data
      <:+: (RfcLinks.link_rfc (RfcLinks.link_rfc "RFC 9116 § 1")).data := by
  constructor
  · decide
  · decide

/-- C5 (amended): the linker is a total function, so a second application
cannot raise; a previously-wrapped citation *without* a section is not
re-linked — the `&` of the escaped `</a>` immediately after it fails the
trailing lookahead, so the second pass leaves the bare-citation output as its
mere re-escaping — but a previously-wrapped citation *with* a section is
wrapped in a further anchor by the second application (see the
counterexample), so the no-double-link property does not hold in general. -/
theorem claim_C5_amended :
    RfcLinks.link_rfc (RfcLinks.link_rfc "RFC 5322") =
      ⟨escapeList (RfcLinks.link_rfc "RFC 5322").data⟩ ∧
    RfcLinks.link_rfc (RfcLinks.link_rfc "RFC 5322") =
      "&lt;a href=&#34;https://datatracker.ietf.org/doc/html/rfc5322&#34;&gt;RFC 5322&lt;/a&gt;" ∧
    RfcLinks.citationCount (RfcLinks.link_rfc "RFC 5322").data = 0 := by
  refine ⟨?_, by decide, by decide⟩
  · decide

/-- C6 counterexample: the anchor's visible text does NOT include the trailing
period — `link("RFC9116 section 2.1.2.")` leaves the final `.` outside the
anchor, so no anchor text ending in `2.1.2.` occurs in the output. -/
theorem claim_C6_counterexample :
    ¬ ("2.1.2.</a>".data <:+: (RfcLinks.link_rfc "RFC9116 section 2.1.2.").data) ∧
    RfcLinks.link_rfc "RFC9116 section 2.1.2." =
      "<a href=\"https://datatracker.ietf.org/doc/html/rfc9116#section-2.1.2\">RFC9116 section 2.1.2</a>." := by
  constructor
  · decide
  · decide

/-- C6 (amended): `link("RFC9116 section 2.1.2.")` produces a link whose URL
fragment is exactly `section-2.1.2` (the trailing period is excluded from
the section used for the anchor); the anchor's visible text is
`"RFC9116 section 2.1.2"` and the trailing period follows the anchor. -/
theorem claim_C6_amended :
    RfcLinks.link_rfc "RFC9116 section 2.1.2." =
      "<a href=\"https://datatracker.ietf.org/doc/html/rfc9116#section-2.1.2\">RFC9116 section 2.1.2</a>." := by
  decide

/-- Shape of the filters replacement for a draft match with a section group. -/
theorem replacement_draft_sect (mat d raw : List Char) :
    RfcLinks._replacement { matched := mat, rfc := none, draft := some d, sect := some raw } =
      "<a href=\"".data ++ ("https://datatracker.ietf.org/doc/html/".data ++ d.map pyLower
        ++ '#' :: RfcLinks._rfc_anchor (rstripPunct (collapseWs raw)))
        ++ "\">".data ++ mat ++ "</a>".data := by
  unfold RfcLinks._replacement
  simp [List.append_assoc]

/-- C7: for every matched draft citation, the whole `draft-…` token (with its
two-digit version suffix when present — the lazy star prefers the reading that
includes it) is the draft identifier; the identifier is the leading piece of
the visible matched span with its original casing, while the URL is built from
the *lowercased* identifier after `https://datatracker.ietf.org/doc/html/`;
concretely `link("draft-ietf-dmarc-base-11 § 4.2")` gives fragment
`section-4.2`, and an upper-cased spelling keeps its casing in the visible
text only. -/
theorem claim_C7 :
    (∀ (s : List Char) (m : MatchRes) (rem d : List Char),
      matchCitation s = some (m, rem) → m.draft = some d →
      (∃ suf, m.matched = d ++ suf) ∧ (∀ c ∈ d, isStarChar c = true) ∧
      (∃ frag, RfcLinks._replacement m =
        "<a href=\"".data ++ ("https://datatracker.ietf.org/doc/html/".data
          ++ d.map pyLower ++ frag) ++ "\">".data ++ m.matched ++ "</a>".data)) ∧
    RfcLinks.link_rfc "draft-ietf-dmarc-base-11 § 4.2" =
      "<a href=\"https://datatracker.ietf.org/doc/html/draft-ietf-dmarc-base-11#section-4.2\">draft-ietf-dmarc-base-11 § 4.2</a>" ∧
    RfcLinks.link_rfc "Draft-IETF-DMARC-base-11 § 4.2" =
      "<a href=\"https://datatracker.ietf.org/doc/html/draft-ietf-dmarc-base-11#section-4.2\">Draft-IETF-DMARC-base-11 § 4.2</a>" := by
  refine ⟨?_, by decide, by decide⟩
  intro s m rem d h hd
  obtain ⟨_e1, _e2, _esec, _erfc, edraft, _hnd, _hdn, _hsn⟩ := matchCitation_split h
  have hbr := matchCitation_branch h
  refine ⟨(edraft d hd).1, (edraft d hd).2, ?_⟩
  obtain ⟨mat, rfcg, draftg, sectg⟩ := m
  have hrn : rfcg = none := by
    rcases hbr with hbr | hbr
    · exact hbr
    · rw [show draftg = (none : Option (List Char)) from hbr] at hd
      exact absurd hd (by simp)
  have hdg : draftg = some d := hd
  subst hrn
  subst hdg
  cases sectg with
  | none =>
    refine ⟨[], ?_⟩
    rw [replacement_draft_root]
    simp
  | some raw =>
    refine ⟨'#' :: RfcLinks._rfc_anchor (rstripPunct (collapseWs raw)), ?_⟩
    rw [replacement_draft_sect]

/-- Witness for C7 at the bare draft `"draft-a"`: the identifier is a prefix
of the matched span. -/
theorem claim_C7_witness :
    ∃ suf, (MatchRes.mk "draft-a".data none (some "draft-a".data) none).matched =
      "draft-a".data ++ suf :=
  (claim_C7.1 "draft-a".data
    (MatchRes.mk "draft-a".data none (some "draft-a".data) none)
    [] "draft-a".data (by decide) rfl).1

/-- C10 counterexample: `normalize_domain` is not idempotent.  On
`"e​́"` (e, zero-width space, combining acute) the first pass
removes the zero-width character *after* NFC has already run, leaving a
decomposed `e` + U+0301; the second pass's NFC then composes them into `é`. -/
theorem claim_C10_counterexample :
    normalize_domain (normalize_domain "e​́") ≠
      normalize_domain "e​́" := by
  decide

/-- C10 (amended): `normalize_domain` is idempotent on inputs consisting only
of ASCII characters (no zero-width characters to strip, no canonical
compositions, case mapping idempotent); it is not idempotent in general, as
removing zero-width characters can enable a new canonical composition on the
second pass. -/
theorem claim_C10_amended (d : List Char) (h : ∀ c ∈ d, c.toNat < 128) :
    normalize_domain_list (normalize_domain_list d) = normalize_domain_list d := by
  have hfilter : d.filter (fun c => !isZeroWidth c) = d := by
    rw [List.filter_eq_self]
    intro a ha
    simp [ascii_not_zero_width (h a ha)]
  have hd1 : normalize_domain_list d = d.map pyLower := by
    show List.map pyLower (List.filter (fun c => !isZeroWidth c) (nfc d)) = List.map pyLower d
    rw [nfc_ascii h, hfilter]
  have hmap_ascii : ∀ c ∈ d.map pyLower, c.toNat < 128 := by
    intro c hc
    rcases List.mem_map.mp hc with ⟨y, hy, hxy⟩
    rw [← hxy]
    exact pyLower_ascii (h y hy)
  rw [hd1]
  show List.map pyLower (List.filter (fun c => !isZeroWidth c) (nfc (List.map pyLower d))) =
    List.map pyLower d
  rw [nfc_ascii hmap_ascii]
  rw [List.filter_eq_self.mpr (fun a ha => by simp [ascii_not_zero_width (hmap_ascii a ha)])]
  rw [List.map_map]
  exact List.map_congr_left (fun a _ => pyLower_idem a)

/-- Witness for C10 (amended) on an ASCII domain. -/
theorem claim_C10_amended_witness :
    normalize_domain_list (normalize_domain_list "ExAmPle.COM".data) =
      normalize_domain_list "ExAmPle.COM".data :=
  claim_C10_amended "ExAmPle.COM".data (by decide)
